import Mathlib

/-!
Verification development for the GitNexus ingestion engine.

The definitions below are shallow embeddings, over `List Char` / `String`,
of the TypeScript sources:
  * `src/core/ingestion/solidity-parser.ts` (`extractSolidityArtifacts` and
    its helpers `stripComments`, `lineOf`, `findBlockEnd`, the regex passes),
  * the alternative extractor `extractSolidityFeatures` (unnamed source file),
  * `src/core/kuzu/kuzu-adapter.ts` (`initKuzu`, `loadGraphToKuzu`,
    `executeQuery`, `isKuzuReady`), with the external KuzuDB effects
    abstracted into an explicit environment of step outcomes.

JavaScript strings are modelled as `List Char` of code points (positions
inside UTF-16 surrogate pairs are not distinguished); the regex passes are
transcribed as deterministic scanners that reproduce the exact matching
semantics of each regex literal (leftmost match, greedy/lazy quantifier
resolution, word boundaries, `lastIndex` advancement of `matchAll`).
Recursive scanners take an explicit fuel argument (always instantiated with
the input length by the wrapper, which makes every recursion total and
kernel-computable); fuel exhaustion is unreachable for those instantiations.
-/

set_option maxHeartbeats 1000000

/-- JS `\w` for non-unicode regexes: `[A-Za-z0-9_]`. -/
def isWordChar (c : Char) : Bool := c.isAlpha || c.isDigit || c = '_'

/-- First character of the identifier class `[A-Za-z_]`. -/
def isIdentStart (c : Char) : Bool := c.isAlpha || c = '_'

/-- JS `\s`: whitespace, line terminators, and the unicode space separators. -/
def isJsSpace (c : Char) : Bool :=
  c = ' ' || c = '\t' || c = '\n' || c = '\r' ||
  c = Char.ofNat 11 || c = Char.ofNat 12 || c = Char.ofNat 160 ||
  c = Char.ofNat 0x1680 || (0x2000 ≤ c.toNat && c.toNat ≤ 0x200a) ||
  c = Char.ofNat 0x2028 || c = Char.ofNat 0x2029 || c = Char.ofNat 0x202f ||
  c = Char.ofNat 0x205f || c = Char.ofNat 0x3000 || c = Char.ofNat 0xfeff

/-- Source: `const preserveNewlines = (s) => s.replace(/[^\n]/g, ' ')` —
the replacement callback of both comment-stripping passes. -/
def preserveNewlines (l : List Char) : List Char :=
  l.map (fun c => if c = '\n' then c else ' ')

/-- Position of the first `*/` in a list (the lazy `[\s\S]*?\*\/` tail of the
block-comment regex finds the earliest closer). `none` when there is no `*/`,
in which case the regex `/\/\*[\s\S]*?\*\//` has no match starting here. -/
def findClose : List Char → Option Nat
  | [] => none
  | c :: rest =>
    if c = '*' ∧ rest.head? = some '/' then some 0
    else (findClose rest).map (· + 1)

/-- First pass of `stripComments`:
`source.replace(/\/\*[\s\S]*?\*\//g, (m) => preserveNewlines(m))`.
The scan walks left to right; at `/*` it finds the earliest `*/` and blanks
the whole match (a match of length `n + 4` when `findClose` returns `n`),
then continues after it. When no `*/` follows, the regex does not match and
the rest of the text is left untouched. Fuel is the caller-supplied input
length; each recursive call consumes at least one character. -/
def blockPassF : Nat → List Char → List Char
  | 0, l => l
  | _ + 1, [] => []
  | fuel + 1, c :: rest =>
    if c = '/' ∧ rest.head? = some '*' then
      match findClose rest.tail with
      | some n =>
        preserveNewlines ((c :: rest).take (n + 4)) ++
          blockPassF fuel ((c :: rest).drop (n + 4))
      | none => c :: rest
    else c :: blockPassF fuel rest

/-- Second pass of `stripComments`:
`.replace(/\/\/.*$/gm, (m) => preserveNewlines(m))`.
At `//` the match runs to the end of the line (`.` excludes the newline),
all of it blanked; the scan resumes at the newline. -/
def linePassF : Nat → List Char → List Char
  | 0, l => l
  | _ + 1, [] => []
  | fuel + 1, c :: rest =>
    if c = '/' ∧ rest.head? = some '/' then
      preserveNewlines ((c :: rest).take (2 + (rest.tail.takeWhile (· ≠ '\n')).length)) ++
        linePassF fuel ((c :: rest).drop (2 + (rest.tail.takeWhile (· ≠ '\n')).length))
    else c :: linePassF fuel rest

def blockPass (l : List Char) : List Char := blockPassF l.length l

def linePass (l : List Char) : List Char := linePassF l.length l

/-- List-level `stripComments`: block-comment pass, then line-comment pass
(the exact order of the two `replace` calls in the source). -/
def stripCommentsL (l : List Char) : List Char := linePass (blockPass l)

/-- Source: `const stripComments = (source) => source.replace(...).replace(...)`. -/
def stripComments (source : String) : String := String.mk (stripCommentsL source.data)

/-- The text has a `/*` at position `i`. -/
def isOpenAt (l : List Char) (i : Nat) : Prop :=
  l[i]? = some '/' ∧ l[i + 1]? = some '*'

/-- The text has a `*/` at position `j`. -/
def isCloseAt (l : List Char) (j : Nat) : Prop :=
  l[j]? = some '*' ∧ l[j + 1]? = some '/'

/-- No `/*` in the text is followed (two or more positions later) by a `*/`:
on such text the block-comment regex has no match at all. -/
def BlockOk (l : List Char) : Prop :=
  ∀ i j, isOpenAt l i → i + 2 ≤ j → ¬ isCloseAt l j

/-- The text contains no `//` occurrence: the line-comment regex has no match. -/
def NoLineStart (l : List Char) : Prop :=
  ∀ i, ¬ (l[i]? = some '/' ∧ l[i + 1]? = some '/')

/-- Match a literal: `dropLit lit l` is the remainder of `l` after the
leading literal `lit`, or `none` when `l` does not start with it. -/
def dropLit : List Char → List Char → Option (List Char)
  | [], l => some l
  | _ :: _, [] => none
  | a :: as, c :: cs => if c = a then dropLit as cs else none

/-- JS `String.prototype.trim` (drops the `\s`-style whitespace at both ends). -/
def jsTrim (l : List Char) : List Char :=
  ((l.dropWhile isJsSpace).reverse.dropWhile isJsSpace).reverse

/-- JS `replace(/\s+/g, ' ')`: every maximal whitespace run becomes a single
space; the boolean records whether the previous character was whitespace. -/
def collapseWsGo : Bool → List Char → List Char
  | _, [] => []
  | prev, c :: rest =>
    if isJsSpace c then
      if prev then collapseWsGo true rest
      else ' ' :: collapseWsGo true rest
    else c :: collapseWsGo false rest

/-- JS `String.prototype.split(',')` (an accumulator-reversing scan). -/
def splitCommaGo : List Char → List Char → List (List Char)
  | acc, [] => [acc.reverse]
  | acc, c :: rest =>
    if c = ',' then acc.reverse :: splitCommaGo [] rest
    else splitCommaGo (c :: acc) rest

def splitComma (l : List Char) : List (List Char) := splitCommaGo [] l

def startsWithL (needle l : List Char) : Bool := (dropLit needle l).isSome

/-- JS `String.prototype.includes` for a nonempty needle. -/
def containsSubL (needle : List Char) : List Char → Bool
  | [] => needle.isEmpty
  | c :: rest => startsWithL needle (c :: rest) || containsSubL needle rest

/-- JS `/\bw\b/.test(s)` for a single word `w` made of word characters: some
position of `s` with no word character before it starts `w`, and the
character after `w` (if any) is not a word character. -/
def hasWordGo (w : List Char) : Bool → List Char → Bool
  | _, [] => false
  | prevWord, c :: rest =>
    (!prevWord &&
      (match dropLit w (c :: rest) with
       | some [] => true
       | some (d :: _) => !(isWordChar d)
       | none => false)) || hasWordGo w (isWordChar c) rest

def hasWordL (w l : List Char) : Bool := hasWordGo w false l

/-- Source: `/\b(public|external)\b/.test(modifiers)` — the `isExported`
test of the function and constructor passes. -/
def hasVisibilityKeyword (mods : List Char) : Bool :=
  hasWordL ("public".data) mods || hasWordL ("external".data) mods

/-- Source: `lineOf` — the number of `\n` (char code 10) strictly before
`index`; 0-based line of the position. -/
def lineOf (source : List Char) (index : Nat) : Nat :=
  ((source.take index).filter (fun c => c = '\n')).length

/-- Loop of `findBlockEnd`: scan from `i`, tracking the brace depth (a JS
number that may go negative, hence `Int`); return `i` at the `}` that brings
the depth to zero; past the end return `source.length - 1` — the fallback
for an unmatched `{`.  (In JS the fallback is `-1` on the empty string; that
case cannot arise for a construct, whose opening brace exists, and `Nat`
subtraction clamps it to `0`.)  Fuel `source.length + 1` covers every
iteration. -/
def findBlockEndGo : Nat → List Char → Int → Nat → Nat
  | 0, source, _, _ => source.length - 1
  | fuel + 1, source, depth, i =>
    match source[i]? with
    | none => source.length - 1
    | some ch =>
      if ch = '{' then findBlockEndGo fuel source (depth + 1) (i + 1)
      else if ch = '}' then
        if depth - 1 = 0 then i
        else findBlockEndGo fuel source (depth - 1) (i + 1)
      else findBlockEndGo fuel source depth (i + 1)

/-- Source: `findBlockEnd(source, openBraceIndex)`. -/
def findBlockEnd (source : List Char) (openBraceIndex : Nat) : Nat :=
  findBlockEndGo (source.length + 1) source 0 openBraceIndex

/-- JS `String.prototype.indexOf(ch, start)`: absolute index, `-1` if absent. -/
def jsIndexOf (l : List Char) (c : Char) (start : Nat) : Int :=
  match (l.drop start).findIdx? (· = c) with
  | some k => (start : Int) + (k : Int)
  | none => -1

/-- JS `String.prototype.slice(a, b)` for `0 ≤ a ≤ b`. -/
def jsSlice (l : List Char) (a b : Nat) : List Char := (l.take b).drop a

/-- Modelled from the spec: `generateId` (imported from `../../lib/utils.js`,
whose source is not provided) — §4.2 Identity Scheme: `id(label, key)` is a
pure, total, deterministic function, with distinct labels or distinct keys
never colliding and identical inputs always coinciding.  Modelled as the
label and key joined by a colon. -/
def generateId (label key : String) : String := label ++ ":" ++ key

/-- Driver for `matchAll` over a `/g` regex each of whose matches begins at
a word boundary followed by a word character (true of every pattern here):
at a position not preceded by a word character, attempt a match; on success
record `(index, capture data)` and resume after the consumed text (JS
`lastIndex`); otherwise advance one character.  All `tryAt` functions below
consume at least one character, so `max n 1` only guards termination. -/
def scanForF {α : Type} (tryAt : List Char → Option (α × Nat)) :
    Nat → Nat → Bool → List Char → List (Nat × α)
  | 0, _, _, _ => []
  | _ + 1, _, _, [] => []
  | fuel + 1, pos, prevWord, c :: rest =>
    if prevWord = false then
      match tryAt (c :: rest) with
      | some (a, n) =>
        (pos, a) ::
          scanForF tryAt fuel (pos + max n 1)
            (isWordChar (((c :: rest).take (max n 1)).getLastD ' '))
            ((c :: rest).drop (max n 1))
      | none => scanForF tryAt fuel (pos + 1) (isWordChar c) rest
    else scanForF tryAt fuel (pos + 1) (isWordChar c) rest

def scanFor {α : Type} (tryAt : List Char → Option (α × Nat)) (l : List Char) :
    List (Nat × α) :=
  scanForF tryAt l.length 0 false l

/-- Maximal identifier run `[A-Za-z_][A-Za-z0-9_]*` at the head, with the
remainder; `none` when the head is not an identifier start. -/
def identRun (l : List Char) : Option (List Char × List Char) :=
  match l with
  | [] => none
  | c :: rest =>
    if isIdentStart c then some (c :: rest.takeWhile isWordChar, rest.dropWhile isWordChar)
    else none

/-- One attempt of the call-site regex `/\b([A-Za-z_][A-Za-z0-9_]*)\s*\(/`:
a maximal identifier run, optional whitespace, then `(`; the match consumes
through the `(`.  (Shortening the greedy identifier leaves a word character
where `\s*\(` must match, so maximality is exact.) -/
def tryCallAt (l : List Char) : Option (List Char × Nat) :=
  match identRun l with
  | none => none
  | some (run, after) =>
    match after.dropWhile isJsSpace with
    | '(' :: restAfter => some (run, l.length - restAfter.length)
    | _ => none

/-- One attempt of `/\bKW\s+([A-Za-z_][A-Za-z0-9_]*)\b/` (the struct, enum,
event, error and part-variant modifier passes): the keyword literal,
mandatory whitespace, then a maximal identifier (its end is a word boundary
by maximality). -/
def tryKwIdentAt (kw : List Char) (l : List Char) : Option (List Char × Nat) :=
  match dropLit kw l with
  | none => none
  | some r0 =>
    if (r0.takeWhile isJsSpace).length = 0 then none
    else
      match identRun (r0.dropWhile isJsSpace) with
      | none => none
      | some (run, after) => some (run, l.length - after.length)

/-- Keyword alternation `(abstract\s+contract|contract|interface|library)`:
alternatives in order; their first letters differ, so at most one literal
applies, and `abstract` not followed by whitespace and `contract` fails the
whole position.  Returns the raw capture-1 text and the remainder. -/
def tryKindAt (l : List Char) : Option (List Char × List Char) :=
  match dropLit ("abstract".data) l with
  | some r1 =>
    let ws := r1.takeWhile isJsSpace
    if ws.length = 0 then none
    else
      match dropLit ("contract".data) (r1.dropWhile isJsSpace) with
      | some r2 => some ("abstract".data ++ ws ++ "contract".data, r2)
      | none => none
  | none =>
    match dropLit ("contract".data) l with
    | some r => some ("contract".data, r)
    | none =>
      match dropLit ("interface".data) l with
      | some r => some ("interface".data, r)
      | none =>
        match dropLit ("library".data) l with
        | some r => some ("library".data, r)
        | none => none

/-- One attempt of the contract-like regex
`/\b(abstract\s+contract|contract|interface|library)\s+([A-Za-z_][A-Za-z0-9_]*)\b([^\{;]*)/`:
keyword, mandatory whitespace, maximal identifier, then the greedy (possibly
empty) run of characters other than `{` and `;` as the declaration suffix.
Returns `(raw kind, name, suffix)`. -/
def tryContractLikeAt (l : List Char) :
    Option ((List Char × List Char × List Char) × Nat) :=
  match tryKindAt l with
  | none => none
  | some (rawKind, r0) =>
    if (r0.takeWhile isJsSpace).length = 0 then none
    else
      match identRun (r0.dropWhile isJsSpace) with
      | none => none
      | some (run, after) =>
        some ((rawKind, run, after.takeWhile (fun c => c ≠ '{' ∧ c ≠ ';')),
          l.length - (after.dropWhile (fun c => c ≠ '{' ∧ c ≠ ';')).length)

/-- One attempt of the function regex
`/\bfunction\s+([A-Za-z_][A-Za-z0-9_]*)\s*\([^)]*\)\s*([^\{;]*)\{/`:
after the parameter list (`[^)]*` runs to the first `)`; none fails), the
run of characters other than `{`/`;` must be terminated by a `{` — a `;` or
the end of input fails the attempt, and backtracking cannot help since
neither class can consume a `{`.  Capture 2 is the run without its leading
whitespace (taken by the greedy `\s*`); the match consumes through the `{`. -/
def tryFunctionAt (l : List Char) : Option ((List Char × List Char) × Nat) :=
  match dropLit ("function".data) l with
  | none => none
  | some r0 =>
    if (r0.takeWhile isJsSpace).length = 0 then none
    else
      match identRun (r0.dropWhile isJsSpace) with
      | none => none
      | some (run, afterName) =>
        match afterName.dropWhile isJsSpace with
        | '(' :: r4 =>
          match r4.dropWhile (· ≠ ')') with
          | ')' :: r5 =>
            match r5.dropWhile (fun c => c ≠ '{' ∧ c ≠ ';') with
            | '{' :: r6 =>
              some ((run, (r5.dropWhile isJsSpace).takeWhile (fun c => c ≠ '{' ∧ c ≠ ';')),
                l.length - r6.length)
            | _ => none
          | _ => none
        | _ => none

/-- One attempt of the constructor regex
`/\bconstructor\s*\([^)]*\)\s*([^\{;]*)\{/` — as the function regex without
the name and with optional whitespace after the keyword. -/
def tryConstructorAt (l : List Char) : Option (List Char × Nat) :=
  match dropLit ("constructor".data) l with
  | none => none
  | some r0 =>
    match r0.dropWhile isJsSpace with
    | '(' :: r4 =>
      match r4.dropWhile (· ≠ ')') with
      | ')' :: r5 =>
        match r5.dropWhile (fun c => c ≠ '{' ∧ c ≠ ';') with
        | '{' :: r6 =>
          some ((r5.dropWhile isJsSpace).takeWhile (fun c => c ≠ '{' ∧ c ≠ ';'),
            l.length - r6.length)
        | _ => none
      | _ => none
    | _ => none

/-- The optional tail `(?:override\s*(?:\([^)]*\))?\s*)?` of the modifier
regex, applied after the whole `virtual` handling: on `override`, whitespace
and an optional parenthesized list are consumed; an unclosed `(` kills the
attempt (skipping the inner group leaves the scan on `(`, skipping
`override` leaves it on `o`, and neither matches the required `{`). -/
def modOverridePart (q2 : List Char) : Option (List Char) :=
  match dropLit ("override".data) q2 with
  | none => some q2
  | some r =>
    match r.dropWhile isJsSpace with
    | '(' :: r2 =>
      match r2.dropWhile (· ≠ ')') with
      | ')' :: r3 => some (r3.dropWhile isJsSpace)
      | _ => none
    | r1 => some r1

/-- One attempt of the modifier regex
`/\bmodifier\s+([A-Za-z_][A-Za-z0-9_]*)\s*\([^)]*\)\s*(?:virtual\s*)?(?:override\s*(?:\([^)]*\))?\s*)?\{/`.
The optional groups are committed greedily; when the consumed text is not
followed by the required `{`, no backtracking alternative can succeed
(skipping `virtual`/`override` leaves the scan on `v`/`o`, which matches
neither the other group nor `{`), so the attempt fails. -/
def tryModifierAt (l : List Char) : Option (List Char × Nat) :=
  match dropLit ("modifier".data) l with
  | none => none
  | some r0 =>
    if (r0.takeWhile isJsSpace).length = 0 then none
    else
      match identRun (r0.dropWhile isJsSpace) with
      | none => none
      | some (run, afterName) =>
        match afterName.dropWhile isJsSpace with
        | '(' :: r4 =>
          match r4.dropWhile (· ≠ ')') with
          | ')' :: r5 =>
            match modOverridePart
                (match dropLit ("virtual".data) (r5.dropWhile isJsSpace) with
                 | some r => r.dropWhile isJsSpace
                 | none => r5.dropWhile isJsSpace) with
            | some ('{' :: r6) => some (run, l.length - r6.length)
            | _ => none
          | _ => none
        | _ => none

/-- Tail of the import regex `["']([^"']+)["']\s*;`: an opening quote of
either kind, a nonempty run of non-quote characters (the captured path), a
closing quote of either kind, whitespace, then `;`. -/
def tryQuoteAt (w : List Char) : Option (List Char × List Char) :=
  match w with
  | [] => none
  | q :: w1 =>
    if q = '"' ∨ q = '\'' then
      let cap := w1.takeWhile (fun c => c ≠ '"' ∧ c ≠ '\'')
      if cap.isEmpty then none
      else
        match w1.dropWhile (fun c => c ≠ '"' ∧ c ≠ '\'') with
        | [] => none
        | _ :: w2 =>
          match w2.dropWhile isJsSpace with
          | ';' :: w4 => some (cap, w4)
          | _ => none
    else none

/-- The lazy optional group `(?:[^;]*?from\s+)?` of the import regex:
candidate `from` occurrences are tried left to right (the lazy prefix may
not contain a `;`, so the search stops at one); each candidate must be
followed by mandatory whitespace and then match the quoted tail; a failing
candidate lets the lazy prefix grow (the next position). -/
def importFromSearch : Nat → List Char → Option (List Char × List Char)
  | 0, _ => none
  | _ + 1, [] => none
  | fuel + 1, c :: m =>
    if c = ';' then none
    else
      (match dropLit ("from".data) (c :: m) with
       | some m1 =>
         if (m1.takeWhile isJsSpace).length = 0 then none
         else tryQuoteAt (m1.dropWhile isJsSpace)
       | none => none) <|>
      importFromSearch fuel m

/-- One attempt of the import regex
`/\bimport\s+(?:[^;]*?from\s+)?["']([^"']+)["']\s*;/`: `import`, mandatory
whitespace, the greedy-preferred `from` group (lazy prefix trying the
earliest `from` first), else the directly quoted path.  Whitespace split
between `\s+` and the lazy prefix is immaterial: the prefix class `[^;]`
accepts whitespace, so searching every position of the remainder covers all
splits; the group-less path needs the quote right after the whitespace. -/
def tryImportAt (l : List Char) : Option (List Char × Nat) :=
  match dropLit ("import".data) l with
  | none => none
  | some r0 =>
    if (r0.takeWhile isJsSpace).length = 0 then none
    else
      match importFromSearch (r0.dropWhile isJsSpace).length (r0.dropWhile isJsSpace) with
      | some (cap, w4) => some (cap, l.length - w4.length)
      | none =>
        match tryQuoteAt (r0.dropWhile isJsSpace) with
        | some (cap, w4) => some (cap, l.length - w4.length)
        | none => none

/-- The non-global `suffix.match(/\bis\s+([^\{;]+)/)` of the heritage
extraction: the first boundary-preceded `is` followed by mandatory
whitespace and a nonempty greedy `[^{;]` capture (nothing required after
it).  When everything after the whitespace run is `{`, `;` or the end, the
regex backtracks one character into `\s+` (needs a run of length at least
two) and the capture is that single whitespace character. -/
def isClauseSearch : Nat → Bool → List Char → Option (List Char)
  | 0, _, _ => none
  | _ + 1, _, [] => none
  | fuel + 1, prevWord, c :: rest =>
    (if prevWord = false then
      match dropLit ("is".data) (c :: rest) with
      | some u =>
        let ws := u.takeWhile isJsSpace
        if ws.length = 0 then none
        else
          let cap := (u.dropWhile isJsSpace).takeWhile (fun ch => ch ≠ '{' ∧ ch ≠ ';')
          if cap.isEmpty then
            if 2 ≤ ws.length then some [ws.getLastD ' '] else none
          else some cap
      | none => none
    else none) <|>
    isClauseSearch fuel (isWordChar c) rest

structure SolidityDefinition where
  label : String
  name : String
  startLine : Nat
  endLine : Nat
  isExported : Bool
deriving DecidableEq, Repr

structure SolidityCall where
  calledName : String
  sourceId : String
deriving DecidableEq, Repr

structure SolidityHeritage where
  className : String
  parentName : String
  kind : String
deriving DecidableEq, Repr

structure SolidityExtractionResult where
  definitions : List SolidityDefinition
  imports : List String
  calls : List SolidityCall
  heritage : List SolidityHeritage
deriving DecidableEq, Repr

/-- A `BlockRegion` of the parser (`end` is `endIdx` here — `end` is a Lean
keyword); `start`/`endIdx` are JS numbers (`indexOf` can give `-1`). -/
structure BlockRegion where
  name : String
  sourceId : String
  start : Int
  endIdx : Int
deriving DecidableEq, Repr

/-- Source: `CALL_KEYWORDS` of `solidity-parser.ts`. -/
def CALL_KEYWORDS : List String :=
  ["if", "for", "while", "require", "assert", "revert", "emit", "return", "new",
   "mapping", "payable", "unchecked", "delete"]

structure DefReq where
  label : String
  name : String
  startIdx : Nat
  isExported : Bool
  endIdx : Nat
deriving DecidableEq, Repr

/-- The `addDef` closure of `extractSolidityArtifacts`: definitions recorded
in order, deduplicated through `seenDefs` by the `label:name:startIdx` key. -/
def addDefs (content : List Char) : List String → List DefReq → List SolidityDefinition
  | _, [] => []
  | seen, r :: rs =>
    if seen.contains (r.label ++ ":" ++ r.name ++ ":" ++ toString r.startIdx) then
      addDefs content seen rs
    else
      ⟨r.label, r.name, lineOf content r.startIdx, lineOf content r.endIdx, r.isExported⟩ ::
        addDefs content ((r.label ++ ":" ++ r.name ++ ":" ++ toString r.startIdx) :: seen) rs

/-- Label for a contract-like match: the raw capture is normalized with
`.replace(/\s+/g, ' ').trim()` and tested with `includes`. -/
def labelForKind (rawKind : List Char) : String :=
  if containsSubL ("interface".data) (jsTrim (collapseWsGo false rawKind)) then "Interface"
  else if containsSubL ("library".data) (jsTrim (collapseWsGo false rawKind)) then "Module"
  else "Class"

/-- Heritage rows of one contract-like match: capture 1 of the `is` clause is
split on `,`, each entry trimmed, empties dropped (`filter(Boolean)`), and
`parent.split(/\s+/)[0]` — for a trimmed nonempty entry, its leading run of
non-whitespace characters — is the parent name. -/
def heritageOfMatch (name : String) (suffix : List Char) : List SolidityHeritage :=
  match isClauseSearch suffix.length false suffix with
  | none => []
  | some cap =>
    (((splitComma cap).map jsTrim).filter (fun p => !p.isEmpty)).map
      (fun p => ⟨name, String.mk (p.takeWhile (fun c => !isJsSpace c)), "extends"⟩)

/-- Source: `const openBrace = content.indexOf('{', start)`. -/
def artifactsOpenBrace (content : List Char) (start : Nat) : Int :=
  jsIndexOf content '{' start

/-- Source: `const closeBrace = openBrace >= 0 ? findBlockEnd(content, openBrace) : start`. -/
def artifactsCloseBrace (content : List Char) (start : Nat) : Int :=
  if 0 ≤ artifactsOpenBrace content start then
    (findBlockEnd content (artifactsOpenBrace content start).toNat : Int)
  else (start : Int)

/-- The `blockRegions.push(...)` of the modifier/function/constructor passes. -/
def mkRegion (filePath : String) (content : List Char) (name : String) (start : Nat) :
    BlockRegion :=
  ⟨name, generateId ("Method") (filePath ++ ":" ++ name),
    artifactsOpenBrace content start, artifactsCloseBrace content start⟩

/-- The block regions of `extractSolidityArtifacts`, in push order: modifier
matches, then function matches, then constructor matches. -/
def artifactsRegions (filePath : String) (content : List Char) : List BlockRegion :=
  ((scanFor tryModifierAt content).map (fun m => mkRegion filePath content (String.mk m.2) m.1)) ++
  ((scanFor tryFunctionAt content).map (fun m => mkRegion filePath content (String.mk m.2.1) m.1)) ++
  ((scanFor tryConstructorAt content).map (fun m => mkRegion filePath content ("constructor") m.1))

/-- The call loop of `extractSolidityArtifacts` for one region:
`if (region.start < 0 || region.end <= region.start) continue;` then the
call-site regex over `content.slice(region.start, region.end + 1)`, skipping
`CALL_KEYWORDS` members and the region's own name. -/
def regionCalls (content : List Char) (region : BlockRegion) : List SolidityCall :=
  if region.start < 0 ∨ region.endIdx ≤ region.start then []
  else
    (scanFor tryCallAt (jsSlice content region.start.toNat (region.endIdx.toNat + 1))).filterMap
      (fun m =>
        if CALL_KEYWORDS.contains (String.mk m.2) then none
        else if String.mk m.2 = region.name then none
        else some ⟨String.mk m.2, region.sourceId⟩)

/-- Source: `extractSolidityArtifacts(filePath, source)` of
`src/core/ingestion/solidity-parser.ts`: comments stripped, imports and
definitions collected by the regex passes (deduplicated by `addDef`),
heritage from the contract suffixes, and call records from the brace-counted
bodies of the modifier/function/constructor regions. -/
def artifactsCalls (filePath : String) (content : List Char) : List SolidityCall :=
  (artifactsRegions filePath content).flatMap (regionCalls content)

def artifactsHeritage (content : List Char) : List SolidityHeritage :=
  (scanFor tryContractLikeAt content).flatMap
    (fun m => heritageOfMatch (String.mk m.2.2.1) m.2.2.2)

/-- The `addDef` requests of `extractSolidityArtifacts`, in source order:
contract-likes, structs, enums, events, then the modifier, function and
constructor passes (the last three with brace-counted end indices and, for
functions/constructors, the visibility-derived `isExported`). -/
def artifactsDefReqs (content : List Char) : List DefReq :=
  ((scanFor tryContractLikeAt content).map (fun m =>
    (⟨labelForKind m.2.1, String.mk m.2.2.1, m.1, true, m.1⟩ : DefReq))) ++
  ((scanFor (tryKwIdentAt ("struct".data)) content).map (fun m =>
    (⟨"Struct", String.mk m.2, m.1, true, m.1⟩ : DefReq))) ++
  ((scanFor (tryKwIdentAt ("enum".data)) content).map (fun m =>
    (⟨"Enum", String.mk m.2, m.1, true, m.1⟩ : DefReq))) ++
  ((scanFor (tryKwIdentAt ("event".data)) content).map (fun m =>
    (⟨"CodeElement", String.mk m.2, m.1, true, m.1⟩ : DefReq))) ++
  ((scanFor tryModifierAt content).map (fun m =>
    (⟨"Method", String.mk m.2, m.1, true, (artifactsCloseBrace content m.1).toNat⟩ : DefReq))) ++
  ((scanFor tryFunctionAt content).map (fun m =>
    (⟨"Method", String.mk m.2.1, m.1, hasVisibilityKeyword m.2.2,
      (artifactsCloseBrace content m.1).toNat⟩ : DefReq))) ++
  ((scanFor tryConstructorAt content).map (fun m =>
    (⟨"Method", "constructor", m.1, hasVisibilityKeyword m.2,
      (artifactsCloseBrace content m.1).toNat⟩ : DefReq)))

/-- Source: `extractSolidityArtifacts(filePath, source)` of
`src/core/ingestion/solidity-parser.ts`: comments stripped, imports and
definitions collected by the regex passes (deduplicated by `addDef`),
heritage from the contract suffixes, and call records from the brace-counted
bodies of the modifier/function/constructor regions. -/
def extractSolidityArtifacts (filePath source : String) : SolidityExtractionResult :=
  ⟨addDefs (stripCommentsL source.data) [] (artifactsDefReqs (stripCommentsL source.data)),
    (scanFor tryImportAt (stripCommentsL source.data)).map (fun m => String.mk m.2),
    artifactsCalls filePath (stripCommentsL source.data),
    artifactsHeritage (stripCommentsL source.data)⟩

/-- Part-variant (`extractSolidityFeatures`) definition record — unlike the
parser variant it carries the node `id`. -/
structure FSolidityDefinition where
  id : String
  label : String
  name : String
  startLine : Nat
  endLine : Nat
  isExported : Bool
deriving DecidableEq, Repr

structure FSolidityExtractionResult where
  definitions : List FSolidityDefinition
  imports : List String
  calls : List SolidityCall
  heritage : List SolidityHeritage
deriving DecidableEq, Repr

/-- Source: `KEYWORD_CALL_EXCLUSIONS` of the part-variant extractor. -/
def KEYWORD_CALL_EXCLUSIONS : List String :=
  ["if", "for", "while", "require", "assert", "revert", "return", "emit", "new",
   "mapping", "constructor", "modifier", "event", "error", "unchecked", "delete",
   "payable", "view", "pure", "returns", "memory", "storage", "calldata"]

/-- Source: `getLineNumber` — `content.slice(0, index).split('\n').length - 1`,
the number of `\n` among the first `index` characters. -/
def getLineNumber (content : List Char) (index : Nat) : Nat :=
  ((content.take index).filter (fun c => c = '\n')).length

/-- The `replace(/\(.+\)$/, '')` step of `normalizeBaseName`: remove the
leftmost `(` that has at least one character (none a newline — `.` excludes
them) before a final `)`, together with everything after it; unchanged when
no such `(` exists (in particular when the text does not end in `)`). -/
def stripParenTail : List Char → List Char → List Char
  | acc, [] => acc.reverse
  | acc, c :: w =>
    if c = '(' ∧ 2 ≤ w.length ∧ w.getLastD ' ' = ')' ∧ ¬ (w.dropLast.contains '\n') then
      acc.reverse
    else stripParenTail (c :: acc) w

/-- Source: `normalizeBaseName` —
`name.trim().replace(/\s+/g, ' ').replace(/\(.+\)$/, '').trim()`. -/
def normalizeBaseName (l : List Char) : List Char :=
  jsTrim (stripParenTail [] (collapseWsGo false (jsTrim l)))

/-- Keyword alternation `(contract|interface|library)` of the part-variant
contract regex. -/
def tryPartKindAt (l : List Char) : Option (List Char × List Char) :=
  match dropLit ("contract".data) l with
  | some r => some ("contract".data, r)
  | none =>
    match dropLit ("interface".data) l with
    | some r => some ("interface".data, r)
    | none =>
      match dropLit ("library".data) l with
      | some r => some ("library".data, r)
      | none => none

/-- The clause `is\s+([^\{]+)` followed by `\s*\{`, applied after the `is`
literal: mandatory whitespace, then the greedy nonempty run of non-`{`
characters (the capture, which keeps any trailing whitespace since the
following `\s*` matches greedily after it), then the `{`.  When the run
would be empty (a `{` right after the whitespace) the regex backtracks one
character into `\s+` (needs a run of length at least two) and captures that
single whitespace character.  Returns the capture and the remainder after
the `{`. -/
def tryIsClause (u : List Char) : Option (List Char × List Char) :=
  if (u.takeWhile isJsSpace).length = 0 then none
  else
    match (u.dropWhile isJsSpace).takeWhile (· ≠ '{') with
    | [] =>
      match u.dropWhile isJsSpace with
      | '{' :: r =>
        if 2 ≤ (u.takeWhile isJsSpace).length then
          some ([(u.takeWhile isJsSpace).getLastD ' '], r)
        else none
      | _ => none
    | cap =>
      match (u.dropWhile isJsSpace).dropWhile (· ≠ '{') with
      | '{' :: r => some (cap, r)
      | _ => none

/-- Continuation of the part-variant contract regex after the maximal
identifier run: either `\s*` then `{` directly (no bases), or `\s*` then the
`is` clause.  One genuine backtracking case of the greedy identifier exists:
when the maximal word run ends in `is` and the direct attempts fail, the
regex retries with the identifier shortened by two, the run's trailing `is`
serving as the clause keyword — viable only because `is\s+` needs
whitespace right after the run; any shorter split leaves `is` followed by a
word character.  Returns `(name, bases?, remainder after the match)`. -/
def partContractBacktrack (run afterRun : List Char) :
    Option (List Char × Option (List Char) × List Char) :=
  if 3 ≤ run.length ∧ run.getLastD ' ' = 's' ∧ run.dropLast.getLastD ' ' = 'i' then
    match tryIsClause afterRun with
    | some (bases, r) => some (run.dropLast.dropLast, some bases, r)
    | none => none
  else none

def tryPartContractTail (run afterRun : List Char) :
    Option (List Char × Option (List Char) × List Char) :=
  match afterRun.dropWhile isJsSpace with
  | '{' :: r => some (run, none, r)
  | t1 =>
    match dropLit ("is".data) t1 with
    | some u =>
      match tryIsClause u with
      | some (bases, r) => some (run, some bases, r)
      | none => partContractBacktrack run afterRun
    | none => partContractBacktrack run afterRun

/-- One attempt of the part-variant contract regex
`/\b(contract|interface|library)\s+([A-Za-z_][A-Za-z0-9_]*)\s*(?:is\s+([^\{]+))?\s*\{/`.
Returns `(kind, name, bases?)`. -/
def tryPartContractAt (l : List Char) :
    Option ((List Char × List Char × Option (List Char)) × Nat) :=
  match tryPartKindAt l with
  | none => none
  | some (kind, r0) =>
    if (r0.takeWhile isJsSpace).length = 0 then none
    else
      match identRun (r0.dropWhile isJsSpace) with
      | none => none
      | some (run, afterRun) =>
        match tryPartContractTail run afterRun with
        | some (name, bases, r) => some ((kind, name, bases), l.length - r.length)
        | none => none

/-- One attempt of the part-variant function regex
`/\bfunction\s+([A-Za-z_][A-Za-z0-9_]*)\s*\([^)]*\)\s*([^\{;]*)/` — as the
parser variant but with no terminating `{`: the greedy signature-tail run
simply ends the match. -/
def tryPartFunctionAt (l : List Char) : Option ((List Char × List Char) × Nat) :=
  match dropLit ("function".data) l with
  | none => none
  | some r0 =>
    if (r0.takeWhile isJsSpace).length = 0 then none
    else
      match identRun (r0.dropWhile isJsSpace) with
      | none => none
      | some (run, afterName) =>
        match afterName.dropWhile isJsSpace with
        | '(' :: r4 =>
          match r4.dropWhile (· ≠ ')') with
          | ')' :: r5 =>
            some ((run, (r5.dropWhile isJsSpace).takeWhile (fun c => c ≠ '{' ∧ c ≠ ';')),
              l.length - (r5.dropWhile (fun c => c ≠ '{' ∧ c ≠ ';')).length)
          | _ => none
        | _ => none

/-- One attempt of the part-variant constructor regex
`/\bconstructor\s*\([^)]*\)\s*([^\{;]*)/`. -/
def tryPartConstructorAt (l : List Char) : Option (List Char × Nat) :=
  match dropLit ("constructor".data) l with
  | none => none
  | some r0 =>
    match r0.dropWhile isJsSpace with
    | '(' :: r4 =>
      match r4.dropWhile (· ≠ ')') with
      | ')' :: r5 =>
        some ((r5.dropWhile isJsSpace).takeWhile (fun c => c ≠ '{' ∧ c ≠ ';'),
          l.length - (r5.dropWhile (fun c => c ≠ '{' ∧ c ≠ ';')).length)
      | _ => none
    | _ => none

/-- Source: `extractSolidityFeatures(filePath, content)` (the unnamed
alternative extractor): no comment stripping; definitions carry ids from
`generateId`; every call record is attributed to
`generateId('File', filePath)` — the file-level source id. -/
def featuresDefinitions (filePath : String) (content : List Char) : List FSolidityDefinition :=
  ((scanFor tryPartContractAt content).map (fun m =>
    (⟨generateId (if m.2.1 = ("interface".data) then ("Interface" : String) else ("Class" : String))
        (filePath ++ ":" ++ String.mk m.2.2.1),
      if m.2.1 = ("interface".data) then ("Interface" : String) else ("Class" : String),
      String.mk m.2.2.1, getLineNumber content m.1, getLineNumber content m.1,
      true⟩ : FSolidityDefinition))) ++
  ((scanFor tryPartFunctionAt content).map (fun m =>
    (⟨generateId ("Function") (filePath ++ ":" ++ String.mk m.2.1), "Function",
      String.mk m.2.1, getLineNumber content m.1, getLineNumber content m.1,
      hasVisibilityKeyword m.2.2⟩ : FSolidityDefinition))) ++
  ((scanFor tryPartConstructorAt content).map (fun m =>
    (⟨generateId ("Constructor") (filePath ++ ":constructor"), "Constructor",
      "constructor", getLineNumber content m.1, getLineNumber content m.1,
      hasVisibilityKeyword m.2⟩ : FSolidityDefinition))) ++
  ((scanFor (tryKwIdentAt ("modifier".data)) content).map (fun m =>
    (⟨generateId ("Method") (filePath ++ ":" ++ String.mk m.2), "Method",
      String.mk m.2, getLineNumber content m.1, getLineNumber content m.1,
      false⟩ : FSolidityDefinition))) ++
  ((scanFor (tryKwIdentAt ("event".data)) content).map (fun m =>
    (⟨generateId ("CodeElement") (filePath ++ ":" ++ String.mk m.2), "CodeElement",
      String.mk m.2, getLineNumber content m.1, getLineNumber content m.1,
      true⟩ : FSolidityDefinition))) ++
  ((scanFor (tryKwIdentAt ("error".data)) content).map (fun m =>
    (⟨generateId ("CodeElement") (filePath ++ ":" ++ String.mk m.2), "CodeElement",
      String.mk m.2, getLineNumber content m.1, getLineNumber content m.1,
      true⟩ : FSolidityDefinition)))

/-- The call loop of the part-variant extractor: the call-site regex over
the whole content, keyword exclusions applied, every record attributed to
`generateId('File', filePath)`. -/
def featuresCalls (filePath : String) (content : List Char) : List SolidityCall :=
  (scanFor tryCallAt content).filterMap (fun m =>
    if KEYWORD_CALL_EXCLUSIONS.contains (String.mk m.2) then none
    else some (⟨String.mk m.2, generateId ("File") filePath⟩ : SolidityCall))

def featuresHeritage (content : List Char) : List SolidityHeritage :=
  (scanFor tryPartContractAt content).flatMap (fun m =>
    match m.2.2.2 with
    | none => []
    | some bases =>
      ((splitComma bases).map normalizeBaseName).filterMap (fun pn =>
        if pn.isEmpty then none
        else some (⟨String.mk m.2.2.1, String.mk pn,
          if m.2.1 = ("interface".data) then ("implements" : String)
          else ("extends" : String)⟩ : SolidityHeritage)))

/-- Source: `extractSolidityFeatures(filePath, content)` (the unnamed
alternative extractor): no comment stripping; definitions carry ids from
`generateId`; every call record is attributed to the file-level id
`generateId('File', filePath)`. -/
def extractSolidityFeatures (filePath content0 : String) : FSolidityExtractionResult :=
  ⟨featuresDefinitions filePath content0.data,
    (scanFor tryImportAt content0.data).map (fun m => String.mk m.2),
    featuresCalls filePath content0.data,
    featuresHeritage content0.data⟩

/-- Modelled from the spec: §3 Node of the Graph Builder (whose TypeScript
sources, `src/core/graph/*`, are not under the provided tree) — the fields
the builder invariant needs. -/
structure GraphNode where
  id : String
  label : String
  name : String
  filePath : String
deriving DecidableEq, Repr

/-- Modelled from the spec: §3 Relationship — `sourceId`, `targetId`, and a
type in CONTAINS/DEFINES/CALLS/IMPORTS/EXTENDS/IMPLEMENTS. -/
structure Relationship where
  sourceId : String
  targetId : String
  relType : String
deriving DecidableEq, Repr

/-- Modelled from the spec: §3 KnowledgeGraph — nodes unique by id plus an
ordered sequence of relationships; counts derived. -/
structure KnowledgeGraph where
  nodes : List GraphNode
  relationships : List Relationship
deriving DecidableEq, Repr

/-- Modelled from the spec: a per-file extraction result as consumed by the
Graph Builder (§4.4) — definitions as `(label, name)` pairs plus the
unresolved references. -/
structure FileResult where
  filePath : String
  definitions : List (String × String)
  calls : List SolidityCall
  imports : List String
  heritage : List SolidityHeritage
deriving DecidableEq, Repr

def nodeIdMem (nodes : List GraphNode) (i : String) : Bool :=
  nodes.any (fun n => n.id = i)

/-- Keep-first deduplication of nodes by id (§4.4 step 2). -/
def dedupeNodes : List String → List GraphNode → List GraphNode
  | _, [] => []
  | seen, n :: ns =>
    if seen.contains n.id then dedupeNodes seen ns
    else n :: dedupeNodes (n.id :: seen) ns

/-- Modelled from the spec: a definition node's id under the Identity Scheme
(§4.2) — a pure function of label, file path and name. -/
def defNodeId (filePath label name : String) : String :=
  generateId label (filePath ++ ":" ++ name)

/-- Modelled from the spec (§4.4 steps 1–2): one File node per ingested
file, one node per definition, deduplicated by id. -/
def buildNodes (results : List FileResult) : List GraphNode :=
  dedupeNodes []
    ((results.map (fun r =>
      (⟨generateId ("File") r.filePath, "File", r.filePath, r.filePath⟩ : GraphNode))) ++
     (results.flatMap (fun r => r.definitions.map (fun d =>
      (⟨defNodeId r.filePath d.1 d.2, d.1, d.2, r.filePath⟩ : GraphNode)))))

/-- Modelled from the spec (§4.4 step 3): the global name index over the
graph's non-File nodes, in file-then-declaration order (node-list order). -/
def candidatesFor (nodes : List GraphNode) (name : String) : List GraphNode :=
  nodes.filter (fun n => n.label ≠ "File" ∧ n.name = name)

/-- Modelled from the spec: the call tie-break — prefer a definition in the
caller's file, else the first match in file-then-declaration order. -/
def pickCandidate (nodes : List GraphNode) (fromFile name : String) : Option GraphNode :=
  match (candidatesFor nodes name).filter (fun n => n.filePath = fromFile) with
  | n :: _ => some n
  | [] => (candidatesFor nodes name).head?

/-- Modelled from the spec: the class/interface name index used for heritage
resolution (§4.4 step 5). -/
def classCandidatesFor (nodes : List GraphNode) (name : String) : List GraphNode :=
  nodes.filter (fun n => (n.label = "Class" ∨ n.label = "Interface") ∧ n.name = name)

def pickClassCandidate (nodes : List GraphNode) (fromFile name : String) : Option GraphNode :=
  match (classCandidatesFor nodes name).filter (fun n => n.filePath = fromFile) with
  | n :: _ => some n
  | [] => (classCandidatesFor nodes name).head?

/-- Resolution of `.`/`..` segments against an accumulated reversed stack. -/
def resolveSegs (acc : List String) : List String → List String
  | [] => acc.reverse
  | s :: rest =>
    if s = "." ∨ s = "" then resolveSegs acc rest
    else if s = ".." then resolveSegs (acc.drop 1) rest
    else resolveSegs (s :: acc) rest

/-- Modelled from the spec (§4.4 step 4): a relative import path is
normalized against the importing file's directory; an absolute-style path is
kept as is. -/
def resolveImportPath (importerPath rawPath : String) : String :=
  if rawPath.startsWith "." then
    String.intercalate "/" (resolveSegs ((importerPath.splitOn "/").dropLast.reverse)
      (rawPath.splitOn "/"))
  else rawPath

/-- Modelled from the spec (§4.4 steps 2–5): the candidate edges — CONTAINS
from each File to its definitions; CALLS/EXTENDS/IMPLEMENTS through the name
indexes with the same-file tie-break, unresolved ones silently dropped;
IMPORTS against the ingested File ids. -/
def buildEdges (results : List FileResult) (nodes : List GraphNode) : List Relationship :=
  (results.flatMap (fun r => r.definitions.map (fun d =>
    (⟨generateId ("File") r.filePath, defNodeId r.filePath d.1 d.2, "CONTAINS"⟩ :
      Relationship)))) ++
  (results.flatMap (fun r => r.calls.filterMap (fun c =>
    match pickCandidate nodes r.filePath c.calledName with
    | some target => some (⟨c.sourceId, target.id, "CALLS"⟩ : Relationship)
    | none => none))) ++
  (results.flatMap (fun r => r.imports.filterMap (fun p =>
    if nodeIdMem nodes (generateId ("File") (resolveImportPath r.filePath p)) then
      some (⟨generateId ("File") r.filePath,
        generateId ("File") (resolveImportPath r.filePath p), "IMPORTS"⟩ : Relationship)
    else none))) ++
  (results.flatMap (fun r => r.heritage.filterMap (fun h =>
    match pickClassCandidate nodes r.filePath h.className,
        pickClassCandidate nodes r.filePath h.parentName with
    | some src, some target =>
      some (⟨src.id, target.id,
        if h.kind = ("implements" : String) then ("IMPLEMENTS" : String)
        else ("EXTENDS" : String)⟩ : Relationship)
    | _, _ => none)))

/-- Keep-first deduplication of identical `(source, target, type)` edges
(§3: no duplicate edges of the same type between the same pair). -/
def dedupeEdges : List Relationship → List Relationship → List Relationship
  | _, [] => []
  | seen, e :: es =>
    if seen.contains e then dedupeEdges seen es
    else e :: dedupeEdges (e :: seen) es

/-- Modelled from the spec (§4.4): `build(perFileResults[]) → KnowledgeGraph`.
The emitted relationship list keeps only edges whose two endpoints are ids
of nodes of the graph — the documented invariant "dangling edges are never
emitted" — and deduplicates repeated same-type edges. -/
def buildGraph (results : List FileResult) : KnowledgeGraph :=
  ⟨buildNodes results,
    dedupeEdges []
      ((buildEdges results (buildNodes results)).filter (fun e =>
        nodeIdMem (buildNodes results) e.sourceId ∧
        nodeIdMem (buildNodes results) e.targetId))⟩

/-- The nullable module-level handles of `kuzu-adapter.ts` (`conn`, `db`),
plus whether a bulk load has completed (for the temporal analysis). -/
structure KuzuState where
  conn : Bool
  db : Bool
  loaded : Bool
deriving DecidableEq, Repr

/-- Outcomes of the external KuzuDB effects, abstracted into an environment:
dynamic import / WASM init, the bulk-load steps (CSV serialization, the two
virtual-FS writes, the two COPY statements, the verification count query),
and the rows a query returns (`none`: `conn.query` throws). -/
structure KuzuEnv where
  initOk : Bool
  serializeOk : Bool
  writeNodesOk : Bool
  writeEdgesOk : Bool
  copyNodesOk : Bool
  copyEdgesOk : Bool
  countOk : Bool
  countValue : Nat
  queryRows : Option (List String)
deriving DecidableEq, Repr

inductive KuzuEvent where
  | initialized
  | queryRan (cypher : String)
deriving DecidableEq, Repr

/-- Source: `initKuzu` — returns immediately when `conn` exists; otherwise
dynamic import, WASM init, database and connection creation (their failure
is rethrown; the schema-creation failures are swallowed by the inner
try/catch). -/
def initKuzu (env : KuzuEnv) (s : KuzuState) :
    Except String (KuzuState × List KuzuEvent) :=
  if s.conn then .ok (s, [])
  else if env.initOk then .ok (⟨true, true, s.loaded⟩, [.initialized])
  else .error "KuzuDB Initialization Failed"

structure LoadResult where
  success : Bool
  count : Nat
deriving DecidableEq, Repr

/-- Source: `loadGraphToKuzu(graph, fileContents)`.  `await initKuzu()` sits
outside the `try`, so an init failure propagates as an exception; inside the
`try`, a failure of any listed step (serialization, CSV writes, COPY, count
query) is caught and returned as the degraded `{success: false, count: 0}`.
The in-memory graph is only read (serialized to CSV); the returned graph
component makes its preservation explicit. -/
def loadGraphToKuzu (env : KuzuEnv) (s : KuzuState) (graph : KnowledgeGraph) :
    Except String (KuzuState × KnowledgeGraph × LoadResult) :=
  match initKuzu env s with
  | .error e => .error e
  | .ok (s1, _) =>
    if env.serializeOk ∧ env.writeNodesOk ∧ env.writeEdgesOk ∧
        env.copyNodesOk ∧ env.copyEdgesOk ∧ env.countOk then
      .ok (⟨s1.conn, s1.db, true⟩, graph, ⟨true, env.countValue⟩)
    else .ok (s1, graph, ⟨false, 0⟩)

/-- Source: `executeQuery(cypher)` — when `conn` is null the store is
initialized first (the query is not rejected); then `conn.query(cypher)`
runs and its rows are collected; a query failure is rethrown. -/
def executeQuery (env : KuzuEnv) (s : KuzuState) (cypher : String) :
    Except String (KuzuState × List KuzuEvent × List String) :=
  match initKuzu env s with
  | .error e => .error e
  | .ok (s1, evs) =>
    match env.queryRows with
    | some rows => .ok (s1, evs ++ [.queryRan cypher], rows)
    | none => .error "Query execution failed"

/-- Source: `isKuzuReady` — `conn !== null && db !== null`: initialization
only, nothing about a completed load. -/
def isKuzuReady (s : KuzuState) : Bool := s.conn && s.db

/-- Concrete source inputs used by witnesses and counterexamples (`\x7b` and
`\x7d` are the braces). -/
def exCallSrc : String := "function f() public \x7b g(); \x7d"

def exSelfSrc : String := "function f() public \x7b f(); \x7d"

def exHeritageSrc : String := "contract C is A(1) \x7b \x7d"

def exHeritage2Src : String := "contract C is A(1, 2) \x7b \x7d"

def exUnterminated : String := "/*a"

/-- Contribution of one character to the brace depth. -/
def charDeltaC (c : Char) : Int :=
  if c = '{' then 1 else if c = '}' then -1 else 0

/-- Signed brace count of `source[start..j)` (`{` = +1, `}` = −1): the depth
the `findBlockEnd` scan has accumulated on reaching `j`. -/
def braceDelta (source : List Char) (start j : Nat) : Int :=
  (((source.take j).drop start).map charDeltaC).sum

def exUnmatchedBrace : String := "\x7bab"

/-- A one-file build input for the builder witness. -/
def exResults : List FileResult := [⟨"a.sol", [("Class", "A")], [], [], []⟩]

def exCommented : String := "a/*b\nc*/d//e"

-- ===== THEOREMS =====

theorem findClose_some {b : List Char} {n : Nat} (h : findClose b = some n) :
    n + 1 < b.length ∧ b[n]? = some '*' ∧ b[n + 1]? = some '/' := by
  induction b generalizing n with
  | nil => simp [findClose] at h
  | cons c rest ih =>
    unfold findClose at h
    split at h
    · rename_i hc
      cases h
      rcases rest with _ | ⟨d, rest'⟩
      · simp [List.head?] at hc
      · obtain ⟨hc1, hc2⟩ := hc
        simp [List.head?] at hc2
        subst hc1 hc2
        refine ⟨by simp only [List.length_cons]; omega, by simp, by simp⟩
    · rcases hm : findClose rest with _ | m
      · rw [hm] at h; simp at h
      · rw [hm] at h; simp at h
        obtain ⟨h1, h2, h3⟩ := ih hm
        subst h
        refine ⟨by simpa using Nat.succ_lt_succ h1, by simpa using h2, by simpa using h3⟩

theorem findClose_none {b : List Char} (h : findClose b = none) :
    ∀ k, ¬ (b[k]? = some '*' ∧ b[k + 1]? = some '/') := by
  induction b with
  | nil => intro k; simp
  | cons c rest ih =>
    unfold findClose at h
    split at h
    · simp at h
    · rename_i hc
      intro k hk
      rcases k with _ | k
      · push_neg at hc
        simp at hk
        obtain ⟨h1, h2⟩ := hk
        subst h1
        exact absurd (by simpa [List.head?_eq_getElem?] using h2) (by
          intro hh
          cases rest with
          | nil => simp at hh
          | cons d r => simp at hh; exact hc rfl (by simp [List.head?, hh]))
      · have hrest : findClose rest = none := by
          rcases hm : findClose rest with _ | m
          · rfl
          · rw [hm] at h; simp at h
        exact ih hrest k (by simpa using hk)

theorem length_preserveNewlines (l : List Char) :
    (preserveNewlines l).length = l.length := by
  simp [preserveNewlines]

theorem getElem?_preserveNewlines (l : List Char) (i : Nat) :
    (preserveNewlines l)[i]? = l[i]?.map (fun c => if c = '\n' then c else ' ') := by
  simp [preserveNewlines]

theorem preserveNewlines_blank {l : List Char} {k : Nat} {c : Char}
    (h : (preserveNewlines l)[k]? = some c) : c = ' ' ∨ c = '\n' := by
  rw [getElem?_preserveNewlines] at h
  rcases hx : l[k]? with _ | x
  · rw [hx] at h; simp at h
  · rw [hx] at h
    simp only [Option.map_some'] at h
    cases h
    by_cases hnl : x = '\n'
    · right; simp [hnl]
    · left; simp [hnl]

theorem length_blockPassF : ∀ (fuel : Nat) (l : List Char),
    (blockPassF fuel l).length = l.length := by
  intro fuel
  induction fuel with
  | zero => intro l; rfl
  | succ fuel ih =>
    intro l
    match l with
    | [] => rfl
    | c :: rest =>
      simp only [blockPassF]
      split
      · rename_i hc
        cases hm : findClose rest.tail with
        | none => rfl
        | some n =>
          have hb := (findClose_some hm).1
          have hne : rest ≠ [] := by
            intro h; subst h; simp [List.head?] at hc
          have hrl : rest.tail.length = rest.length - 1 := by
            cases rest with
            | nil => exact absurd rfl hne
            | cons r0 rt => simp
          simp only [List.length_append, length_preserveNewlines, List.length_take,
            List.length_drop, ih, List.length_cons]
          omega
      · simp [ih]

theorem getElem?_blockPassF : ∀ (fuel : Nat) (l : List Char) (i : Nat),
    (blockPassF fuel l)[i]? = l[i]? ∨
      ((blockPassF fuel l)[i]? = some ' ' ∧ l[i]? ≠ some '\n') := by
  intro fuel
  induction fuel with
  | zero => intro l i; left; rfl
  | succ fuel ih =>
    intro l i
    match l with
    | [] => left; rfl
    | c :: rest =>
      simp only [blockPassF]
      split
      · rename_i hc
        cases hm : findClose rest.tail with
        | none => left; rfl
        | some n =>
          dsimp only
          have hb := (findClose_some hm).1
          have hne : rest ≠ [] := by
            intro h; subst h; simp [List.head?] at hc
          have hrl : rest.tail.length = rest.length - 1 := by
            cases rest with
            | nil => exact absurd rfl hne
            | cons r0 rt => simp
          have htlen : (preserveNewlines ((c :: rest).take (n + 4))).length = n + 4 := by
            rw [length_preserveNewlines, List.length_take]
            simp only [List.length_cons]
            omega
          by_cases hi : i < n + 4
          · rw [List.getElem?_append_left (by omega)]
            rw [getElem?_preserveNewlines]
            rw [List.getElem?_take, if_pos hi]
            rcases hx : (c :: rest)[i]? with _ | x
            · left; simp
            · simp only [Option.map_some']
              by_cases hnl : x = '\n'
              · left; simp [hnl]
              · right
                constructor
                · simp [hnl]
                · simp [hnl]
          · rw [List.getElem?_append_right (by omega)]
            rw [htlen]
            rcases ih ((c :: rest).drop (n + 4)) (i - (n + 4)) with h | ⟨h1, h2⟩
            · left
              rw [h, List.getElem?_drop]
              congr 1
              omega
            · right
              refine ⟨h1, ?_⟩
              rw [List.getElem?_drop] at h2
              have : n + 4 + (i - (n + 4)) = i := by omega
              rwa [this] at h2
      · rename_i hc
        cases i with
        | zero => left; simp
        | succ i =>
          rcases ih rest i with h | ⟨h1, h2⟩
          · left; simpa using h
          · right; exact ⟨by simpa using h1, by simpa using h2⟩

theorem length_linePassF : ∀ (fuel : Nat) (l : List Char),
    (linePassF fuel l).length = l.length := by
  intro fuel
  induction fuel with
  | zero => intro l; rfl
  | succ fuel ih =>
    intro l
    match l with
    | [] => rfl
    | c :: rest =>
      simp only [linePassF]
      split
      · rename_i hc
        have hne : rest ≠ [] := by
          intro h; subst h; simp [List.head?] at hc
        have hrl : rest.tail.length = rest.length - 1 := by
          cases rest with
          | nil => exact absurd rfl hne
          | cons r0 rt => simp
        have htw : (rest.tail.takeWhile (· ≠ '\n')).length ≤ rest.tail.length :=
          (List.takeWhile_prefix _).length_le
        set k := (rest.tail.takeWhile (· ≠ '\n')).length with hk
        simp only [List.length_append, length_preserveNewlines, List.length_take,
          List.length_drop, ih, List.length_cons]
        clear_value k
        omega
      · simp [ih]

theorem getElem?_linePassF : ∀ (fuel : Nat) (l : List Char) (i : Nat),
    (linePassF fuel l)[i]? = l[i]? ∨
      ((linePassF fuel l)[i]? = some ' ' ∧ l[i]? ≠ some '\n') := by
  intro fuel
  induction fuel with
  | zero => intro l i; left; rfl
  | succ fuel ih =>
    intro l i
    match l with
    | [] => left; rfl
    | c :: rest =>
      simp only [linePassF]
      split
      · rename_i hc
        have hne : rest ≠ [] := by
          intro h; subst h; simp [List.head?] at hc
        have hrl : rest.tail.length = rest.length - 1 := by
          cases rest with
          | nil => exact absurd rfl hne
          | cons r0 rt => simp
        have htw : (rest.tail.takeWhile (· ≠ '\n')).length ≤ rest.tail.length :=
          (List.takeWhile_prefix _).length_le
        set k := (rest.tail.takeWhile (· ≠ '\n')).length with hk
        clear_value k
        have hpos : 1 ≤ rest.length := List.length_pos.mpr hne
        have htlen : (preserveNewlines ((c :: rest).take (2 + k))).length = 2 + k := by
          rw [length_preserveNewlines, List.length_take]
          simp only [List.length_cons]
          omega
        by_cases hi : i < 2 + k
        · rw [List.getElem?_append_left (by omega)]
          rw [getElem?_preserveNewlines]
          rw [List.getElem?_take, if_pos hi]
          rcases hx : (c :: rest)[i]? with _ | x
          · left; simp
          · simp only [Option.map_some']
            by_cases hnl : x = '\n'
            · left; simp [hnl]
            · right
              constructor
              · simp [hnl]
              · simp [hnl]
        · rw [List.getElem?_append_right (by omega)]
          rw [htlen]
          rcases ih ((c :: rest).drop (2 + k)) (i - (2 + k)) with h | ⟨h1, h2⟩
          · left
            rw [h, List.getElem?_drop]
            congr 1
            omega
          · right
            refine ⟨h1, ?_⟩
            rw [List.getElem?_drop] at h2
            have : 2 + k + (i - (2 + k)) = i := by omega
            rwa [this] at h2
      · rename_i hc
        cases i with
        | zero => left; simp
        | succ i =>
          rcases ih rest i with h | ⟨h1, h2⟩
          · left; simpa using h
          · right; exact ⟨by simpa using h1, by simpa using h2⟩

theorem blockOk_tail {c : Char} {l : List Char} (h : BlockOk (c :: l)) : BlockOk l := by
  intro i j ho hij hc
  exact h (i + 1) (j + 1)
    ⟨by simpa using ho.1, by simpa using ho.2⟩ (by omega)
    ⟨by simpa using hc.1, by simpa using hc.2⟩

theorem noLineStart_tail {c : Char} {l : List Char} (h : NoLineStart (c :: l)) :
    NoLineStart l := by
  intro i hi
  exact h (i + 1) ⟨by simpa using hi.1, by simpa using hi.2⟩

theorem blockOk_append_of_blank {xs ys : List Char}
    (hxs : ∀ (k : Nat) (c : Char), xs[k]? = some c → c = ' ' ∨ c = '\n')
    (hys : BlockOk ys) : BlockOk (xs ++ ys) := by
  intro i j ho hij hc
  have hnotslash : ∀ (k : Nat), k < xs.length → ¬ ((xs ++ ys)[k]? = some '/') := by
    intro k hk hkk
    rw [List.getElem?_append_left hk] at hkk
    rcases hxs k '/' hkk with h | h <;> simp at h
  have hnotstar : ∀ (k : Nat), k < xs.length → ¬ ((xs ++ ys)[k]? = some '*') := by
    intro k hk hkk
    rw [List.getElem?_append_left hk] at hkk
    rcases hxs k '*' hkk with h | h <;> simp at h
  have hi : xs.length ≤ i := by
    by_contra hlt
    push_neg at hlt
    exact hnotslash i hlt ho.1
  have hj : xs.length ≤ j := by omega
  refine hys (i - xs.length) (j - xs.length) ⟨?_, ?_⟩ (by omega) ⟨?_, ?_⟩
  · have := ho.1
    rwa [List.getElem?_append_right hi] at this
  · have := ho.2
    rw [List.getElem?_append_right (by omega)] at this
    have harith : i + 1 - xs.length = i - xs.length + 1 := by omega
    rwa [harith] at this
  · have := hc.1
    rwa [List.getElem?_append_right hj] at this
  · have := hc.2
    rw [List.getElem?_append_right (by omega)] at this
    have harith : j + 1 - xs.length = j - xs.length + 1 := by omega
    rwa [harith] at this

theorem noLineStart_append_of_blank {xs ys : List Char}
    (hxs : ∀ (k : Nat) (c : Char), xs[k]? = some c → c = ' ' ∨ c = '\n')
    (hys : NoLineStart ys) : NoLineStart (xs ++ ys) := by
  intro i hi
  have hilen : xs.length ≤ i := by
    by_contra hlt
    push_neg at hlt
    have := hi.1
    rw [List.getElem?_append_left hlt] at this
    rcases hxs i '/' this with h | h <;> simp at h
  refine hys (i - xs.length) ⟨?_, ?_⟩
  · have := hi.1
    rwa [List.getElem?_append_right hilen] at this
  · have := hi.2
    rw [List.getElem?_append_right (by omega)] at this
    have harith : i + 1 - xs.length = i - xs.length + 1 := by omega
    rwa [harith] at this

theorem blockPassF_of_blockOk : ∀ (fuel : Nat) (l : List Char),
    BlockOk l → blockPassF fuel l = l := by
  intro fuel
  induction fuel with
  | zero => intro l _; rfl
  | succ fuel ih =>
    intro l hok
    match l with
    | [] => rfl
    | c :: rest =>
      simp only [blockPassF]
      split
      · rename_i hc
        obtain ⟨hc1, hc2⟩ := hc
        cases hm : findClose rest.tail with
        | none => rfl
        | some n =>
          exfalso
          obtain ⟨hb, h2, h3⟩ := findClose_some hm
          subst hc1
          have hne : rest ≠ [] := by
            intro h; subst h; simp [List.head?] at hc2
          cases rest with
          | nil => exact absurd rfl hne
          | cons r0 rt =>
            have hr0 : r0 = '*' := by simpa [List.head?] using hc2
            subst hr0
            refine hok 0 (n + 2) ⟨by simp, by simp⟩ (by omega) ⟨?_, ?_⟩
            · simpa using h2
            · simpa using h3
      · rename_i hc
        rw [ih rest (blockOk_tail hok)]

theorem linePassF_of_noLineStart : ∀ (fuel : Nat) (l : List Char),
    NoLineStart l → linePassF fuel l = l := by
  intro fuel
  induction fuel with
  | zero => intro l _; rfl
  | succ fuel ih =>
    intro l hok
    match l with
    | [] => rfl
    | c :: rest =>
      simp only [linePassF]
      split
      · rename_i hc
        exfalso
        obtain ⟨hc1, hc2⟩ := hc
        subst hc1
        refine hok 0 ⟨by simp, ?_⟩
        cases rest with
        | nil => simp [List.head?] at hc2
        | cons r0 rt =>
          have hr0 : r0 = '/' := by simpa [List.head?] using hc2
          subst hr0
          simp
      · rename_i hc
        rw [ih rest (noLineStart_tail hok)]

theorem blockOk_blockPassF : ∀ (fuel : Nat) (l : List Char),
    l.length ≤ fuel → BlockOk (blockPassF fuel l) := by
  intro fuel
  induction fuel with
  | zero =>
    intro l hl
    have : l = [] := List.length_eq_zero.mp (Nat.le_zero.mp hl)
    subst this
    intro i j ho _ _
    simp [isOpenAt, blockPassF] at ho
  | succ fuel ih =>
    intro l hl
    match l with
    | [] =>
      intro i j ho _ _
      simp [isOpenAt, blockPassF] at ho
    | c :: rest =>
      simp only [blockPassF]
      split
      · rename_i hc
        obtain ⟨hc1, hc2⟩ := hc
        cases hm : findClose rest.tail with
        | some n =>
          dsimp only
          apply blockOk_append_of_blank
          · intro k x hk
            exact preserveNewlines_blank hk
          · apply ih
            have : ((c :: rest).drop (n + 4)).length = (c :: rest).length - (n + 4) := by
              simp
            rw [this]
            simp only [List.length_cons] at hl ⊢
            omega
        | none =>
          intro i j ho hij hcl
          have hnone := findClose_none hm
          subst hc1
          have hne : rest ≠ [] := by
            intro h; subst h; simp [List.head?] at hc2
          cases rest with
          | nil => exact absurd rfl hne
          | cons r0 rt =>
            have hr0 : r0 = '*' := by simpa [List.head?] using hc2
            subst hr0
            obtain ⟨hj1, hj2⟩ := hcl
            have hj2' : 2 ≤ j := by omega
            obtain ⟨m, rfl⟩ : ∃ m, j = m + 2 := ⟨j - 2, by omega⟩
            exact hnone m ⟨by simpa using hj1, by simpa using hj2⟩
      · rename_i hc
        intro i j ho hij hcl
        have hrest : rest.length ≤ fuel := by
          simp only [List.length_cons] at hl
          omega
        cases i with
        | zero =>
          obtain ⟨h1, h2⟩ := ho
          simp only [List.getElem?_cons_zero, Option.some.injEq] at h1
          have h2' : (blockPassF fuel rest)[0]? = some '*' := by simpa using h2
          rcases getElem?_blockPassF fuel rest 0 with heq | ⟨hsp, _⟩
          · rw [heq] at h2'
            apply hc
            constructor
            · exact h1
            · rwa [List.head?_eq_getElem?]
          · rw [hsp] at h2'
            simp at h2'
        | succ i =>
          cases j with
          | zero => omega
          | succ j =>
            obtain ⟨h1, h2⟩ := ho
            obtain ⟨h3, h4⟩ := hcl
            exact ih rest hrest i j
              ⟨by simpa using h1, by simpa using h2⟩ (by omega)
              ⟨by simpa using h3, by simpa using h4⟩

theorem noLineStart_linePassF : ∀ (fuel : Nat) (l : List Char),
    l.length ≤ fuel → NoLineStart (linePassF fuel l) := by
  intro fuel
  induction fuel with
  | zero =>
    intro l hl
    have : l = [] := List.length_eq_zero.mp (Nat.le_zero.mp hl)
    subst this
    intro i hi
    simp [linePassF] at hi
  | succ fuel ih =>
    intro l hl
    match l with
    | [] =>
      intro i hi
      simp [linePassF] at hi
    | c :: rest =>
      simp only [linePassF]
      split
      · rename_i hc
        apply noLineStart_append_of_blank
        · intro k x hk
          exact preserveNewlines_blank hk
        · apply ih
          have : ((c :: rest).drop (2 + (rest.tail.takeWhile (· ≠ '\n')).length)).length =
              (c :: rest).length - (2 + (rest.tail.takeWhile (· ≠ '\n')).length) := by
            simp
          rw [this]
          simp only [List.length_cons] at hl ⊢
          omega
      · rename_i hc
        intro i hi
        have hrest : rest.length ≤ fuel := by
          simp only [List.length_cons] at hl
          omega
        cases i with
        | zero =>
          obtain ⟨h1, h2⟩ := hi
          simp only [List.getElem?_cons_zero, Option.some.injEq] at h1
          have h2' : (linePassF fuel rest)[0]? = some '/' := by simpa using h2
          rcases getElem?_linePassF fuel rest 0 with heq | ⟨hsp, _⟩
          · rw [heq] at h2'
            apply hc
            constructor
            · exact h1
            · rwa [List.head?_eq_getElem?]
          · rw [hsp] at h2'
            simp at h2'
        | succ i =>
          obtain ⟨h1, h2⟩ := hi
          exact ih rest hrest i ⟨by simpa using h1, by simpa using h2⟩

theorem blockOk_linePassF (fuel : Nat) (l : List Char) (h : BlockOk l) :
    BlockOk (linePassF fuel l) := by
  intro i j ho hij hc
  have o1 := getElem?_linePassF fuel l i
  have o2 := getElem?_linePassF fuel l (i + 1)
  have c1 := getElem?_linePassF fuel l j
  have c2 := getElem?_linePassF fuel l (j + 1)
  refine h i j ⟨?_, ?_⟩ hij ⟨?_, ?_⟩
  · rcases o1 with heq | ⟨hsp, _⟩
    · rw [← heq]; exact ho.1
    · rw [ho.1] at hsp; simp at hsp
  · rcases o2 with heq | ⟨hsp, _⟩
    · rw [← heq]; exact ho.2
    · rw [ho.2] at hsp; simp at hsp
  · rcases c1 with heq | ⟨hsp, _⟩
    · rw [← heq]; exact hc.1
    · rw [hc.1] at hsp; simp at hsp
  · rcases c2 with heq | ⟨hsp, _⟩
    · rw [← heq]; exact hc.2
    · rw [hc.2] at hsp; simp at hsp

theorem stripCommentsL_idem (l : List Char) :
    stripCommentsL (stripCommentsL l) = stripCommentsL l := by
  have h1 : BlockOk (blockPass l) := blockOk_blockPassF l.length l le_rfl
  have h2 : BlockOk (linePass (blockPass l)) := blockOk_linePassF _ _ h1
  have h3 : blockPass (linePass (blockPass l)) = linePass (blockPass l) :=
    blockPassF_of_blockOk _ _ h2
  have h4 : NoLineStart (linePass (blockPass l)) :=
    noLineStart_linePassF (blockPass l).length (blockPass l) le_rfl
  show linePass (blockPass (linePass (blockPass l))) = linePass (blockPass l)
  rw [h3]
  exact linePassF_of_noLineStart _ _ h4

theorem length_stripCommentsL (l : List Char) : (stripCommentsL l).length = l.length := by
  show (linePassF (blockPassF l.length l).length (blockPassF l.length l)).length = l.length
  rw [length_linePassF, length_blockPassF]

theorem getElem?_stripCommentsL (l : List Char) (i : Nat) :
    (stripCommentsL l)[i]? = l[i]? ∨
      ((stripCommentsL l)[i]? = some ' ' ∧ l[i]? ≠ some '\n') := by
  have hline := getElem?_linePassF (blockPassF l.length l).length (blockPassF l.length l) i
  have hblock := getElem?_blockPassF l.length l i
  have hdef : stripCommentsL l =
      linePassF (blockPassF l.length l).length (blockPassF l.length l) := rfl
  rw [hdef]
  rcases hline with h1 | ⟨h1, h1n⟩
  · rcases hblock with h2 | ⟨h2, h2n⟩
    · left; rw [h1, h2]
    · right; exact ⟨by rw [h1, h2], h2n⟩
  · rcases hblock with h2 | ⟨h2, h2n⟩
    · right; exact ⟨h1, by rw [← h2]; exact h1n⟩
    · right; exact ⟨h1, h2n⟩

theorem newline_stripCommentsL (l : List Char) (i : Nat) :
    (stripCommentsL l)[i]? = some '\n' ↔ l[i]? = some '\n' := by
  constructor
  · intro h
    rcases getElem?_stripCommentsL l i with heq | ⟨hsp, _⟩
    · rw [← heq]; exact h
    · rw [h] at hsp; simp at hsp
  · intro h
    rcases getElem?_stripCommentsL l i with heq | ⟨_, hne⟩
    · rw [heq]; exact h
    · exact absurd h hne

/-- C10: the comment normalizer is idempotent — for every input string,
`stripComments (stripComments s) = stripComments s`; blanking comments never
creates new comment delimiters for a second pass to strip. -/
theorem stripComments_idempotent (s : String) :
    stripComments (stripComments s) = stripComments s := by
  show String.mk (stripCommentsL (String.mk (stripCommentsL s.data)).data) =
    String.mk (stripCommentsL s.data)
  have hdata : (String.mk (stripCommentsL s.data)).data = stripCommentsL s.data := rfl
  rw [hdata, stripCommentsL_idem]

/-- C3 counterexample: the claim fails as stated on an unterminated block
comment.  On `"/*a"` the block-comment regex (which requires a terminating
`*/`) has no match and the line-comment pass sees no `//`, so the normalizer
returns the input unchanged: the character `a` — inside the unterminated
comment, which the claim says runs to end-of-text and is blanked — survives
as `a`, not a blank. -/
theorem stripComments_unterminated_counterexample :
    stripComments exUnterminated = exUnterminated ∧
    (stripComments exUnterminated).data[2]? = some 'a' ∧ ('a' : Char) ≠ ' ' := by
  refine ⟨by decide, by decide, by decide⟩

/-- C3 amended: the comment normalizer is total and, for every input byte
sequence, returns a string of identical length and identical newline
positions in which every character is either kept or replaced by the blank
`' '`; characters inside terminated block comments and line comments are
blanked (concrete conjunct), but an unterminated block comment is left
unchanged rather than being blanked to end-of-text. -/
theorem stripComments_shape (s : String) :
    (stripComments s).length = s.length ∧
    (∀ i : Nat, (stripComments s).data[i]? = some '\n' ↔ s.data[i]? = some '\n') ∧
    (∀ i : Nat, (stripComments s).data[i]? = s.data[i]? ∨ (stripComments s).data[i]? = some ' ') ∧
    stripComments exCommented = ("a   \n   d   ") := by
  refine ⟨?_, ?_, ?_, by decide⟩
  · show (String.mk (stripCommentsL s.data)).length = s.length
    show (stripCommentsL s.data).length = s.data.length
    exact length_stripCommentsL s.data
  · intro i
    exact newline_stripCommentsL s.data i
  · intro i
    rcases getElem?_stripCommentsL s.data i with h | ⟨h, _⟩
    · left; exact h
    · right; exact h

theorem braceDelta_step {source : List Char} {i : Nat} {ch : Char}
    (hch : source[i]? = some ch) {j : Nat} (hij : i < j) :
    braceDelta source i j = charDeltaC ch + braceDelta source (i + 1) j := by
  have hilen : i < source.length := by
    by_contra hl
    push_neg at hl
    rw [List.getElem?_eq_none hl] at hch
    exact Option.noConfusion hch
  have hitake : i < (source.take j).length := by
    rw [List.length_take]
    omega
  have hget : (source.take j)[i] = ch := by
    have h1 : (source.take j)[i]? = some ch := by
      rw [List.getElem?_take, if_pos hij]
      exact hch
    rw [List.getElem?_eq_getElem hitake] at h1
    exact Option.some.inj h1
  have hdrop : (source.take j).drop i = ch :: (source.take j).drop (i + 1) := by
    rw [List.drop_eq_getElem_cons hitake, hget]
  unfold braceDelta
  rw [hdrop]
  simp

theorem braceDelta_self (source : List Char) (i : Nat) :
    braceDelta source i i = 0 := by
  unfold braceDelta
  have h : (source.take i).drop i = [] := by
    apply List.drop_eq_nil_of_le
    rw [List.length_take]
    omega
  rw [h]
  simp

theorem findBlockEndGo_no_close (source : List Char) :
    ∀ (fuel : Nat) (i : Nat) (depth : Int),
      (∀ j, j < source.length → i ≤ j → source[j]? = some '}' →
        depth + braceDelta source i j ≠ 1) →
      findBlockEndGo fuel source depth i = source.length - 1 := by
  intro fuel
  induction fuel with
  | zero => intro i depth _; rfl
  | succ fuel ih =>
    intro i depth h
    simp only [findBlockEndGo]
    cases hch : source[i]? with
    | none => rfl
    | some ch =>
      dsimp only
      have hilen : i < source.length := by
        by_contra hl
        push_neg at hl
        rw [List.getElem?_eq_none hl] at hch
        exact Option.noConfusion hch
      by_cases hopen : ch = '{'
      · subst hopen
        rw [if_pos rfl]
        apply ih
        intro j hj hij hcj
        have hstep := h j hj (by omega) hcj
        rw [braceDelta_step hch (by omega)] at hstep
        rw [(by decide : charDeltaC '{' = (1 : Int))] at hstep
        intro hcon
        apply hstep
        omega
      · rw [if_neg hopen]
        by_cases hclose : ch = '}'
        · subst hclose
          rw [if_pos rfl]
          have hd : depth ≠ 1 := by
            have hself := h i hilen le_rfl hch
            rw [braceDelta_self] at hself
            intro hcon
            apply hself
            omega
          rw [if_neg (by omega)]
          apply ih
          intro j hj hij hcj
          have hstep := h j hj (by omega) hcj
          rw [braceDelta_step hch (by omega)] at hstep
          rw [(by decide : charDeltaC '}' = (-1 : Int))] at hstep
          intro hcon
          apply hstep
          omega
        · rw [if_neg hclose]
          apply ih
          intro j hj hij hcj
          have hstep := h j hj (by omega) hcj
          rw [braceDelta_step hch (by omega)] at hstep
          have hzero : charDeltaC ch = 0 := by
            unfold charDeltaC
            rw [if_neg hopen, if_neg hclose]
          rw [hzero] at hstep
          intro hcon
          apply hstep
          omega

/-- C7: when the opening brace at `openBraceIndex` has no matching closing
brace — no `}` position at or after it ever sees an accumulated brace count
of one — the brace-depth scan does not fail: `findBlockEnd` returns the last
index of the text, `source.length - 1`.  Totality of the whole extraction is
by construction: `extractSolidityArtifacts` is a total function. -/
theorem findBlockEnd_unmatched (source : List Char) (openBraceIndex : Nat)
    (h : ∀ j, j < source.length → openBraceIndex ≤ j → source[j]? = some '}' →
      braceDelta source openBraceIndex j ≠ 1) :
    findBlockEnd source openBraceIndex = source.length - 1 := by
  apply findBlockEndGo_no_close
  intro j hj hij hcj
  have := h j hj hij hcj
  intro hcon
  apply this
  omega

/-- Witness for C7 at the concrete text `"{ab"` (its `{` unmatched): the
hypothesis holds (there is no `}` at all) and `findBlockEnd` returns
`length - 1 = 2`. -/
theorem findBlockEnd_unmatched_witness :
    (∀ j, j < exUnmatchedBrace.data.length → 0 ≤ j →
      exUnmatchedBrace.data[j]? = some '}' →
      braceDelta exUnmatchedBrace.data 0 j ≠ 1) ∧
    findBlockEnd exUnmatchedBrace.data 0 = exUnmatchedBrace.data.length - 1 :=
  ⟨by decide, findBlockEnd_unmatched exUnmatchedBrace.data 0 (by decide)⟩

/-- C6: whenever the store is initialized (or initializes successfully) and
any of the listed bulk-load steps fails — serialization, a CSV write, a COPY
statement, or the verification count query — `loadGraphToKuzu` returns the
degraded `{success := false, count := 0}` value (an `.ok` result, not an
exception), and the in-memory `KnowledgeGraph` it hands back is exactly the
one passed in, unchanged and usable. -/
theorem loadGraphToKuzu_degrades (env : KuzuEnv) (s : KuzuState) (g : KnowledgeGraph)
    (hinit : s.conn = true ∨ env.initOk = true)
    (hfail : ¬ (env.serializeOk = true ∧ env.writeNodesOk = true ∧
      env.writeEdgesOk = true ∧ env.copyNodesOk = true ∧
      env.copyEdgesOk = true ∧ env.countOk = true)) :
    ∃ s1, loadGraphToKuzu env s g = .ok (s1, g, ⟨false, 0⟩) := by
  unfold loadGraphToKuzu initKuzu
  by_cases hc : s.conn = true
  · rw [if_pos hc]
    refine ⟨s, ?_⟩
    dsimp only
    rw [if_neg hfail]
  · rw [if_neg hc]
    have hio : env.initOk = true := by
      rcases hinit with h | h
      · exact absurd h hc
      · exact h
    rw [if_pos hio]
    refine ⟨⟨true, true, s.loaded⟩, ?_⟩
    dsimp only
    rw [if_neg hfail]

/-- Witness for C6: a concrete environment whose node COPY fails — the
result is `.ok` with `{success := false, count := 0}` and the same graph. -/
theorem loadGraphToKuzu_degrades_witness :
    ((⟨false, false, false⟩ : KuzuState).conn = true ∨
      (⟨true, true, true, true, false, true, true, 5, some []⟩ : KuzuEnv).initOk = true) ∧
    (¬ ((⟨true, true, true, true, false, true, true, 5, some []⟩ : KuzuEnv).serializeOk = true ∧
      (⟨true, true, true, true, false, true, true, 5, some []⟩ : KuzuEnv).writeNodesOk = true ∧
      (⟨true, true, true, true, false, true, true, 5, some []⟩ : KuzuEnv).writeEdgesOk = true ∧
      (⟨true, true, true, true, false, true, true, 5, some []⟩ : KuzuEnv).copyNodesOk = true ∧
      (⟨true, true, true, true, false, true, true, 5, some []⟩ : KuzuEnv).copyEdgesOk = true ∧
      (⟨true, true, true, true, false, true, true, 5, some []⟩ : KuzuEnv).countOk = true)) ∧
    ∃ s1, loadGraphToKuzu (⟨true, true, true, true, false, true, true, 5, some []⟩ : KuzuEnv)
      (⟨false, false, false⟩ : KuzuState) (⟨[], []⟩ : KnowledgeGraph) =
      .ok (s1, (⟨[], []⟩ : KnowledgeGraph), ⟨false, 0⟩) :=
  ⟨Or.inr rfl, by decide,
    loadGraphToKuzu_degrades _ _ _ (Or.inr rfl) (by decide)⟩

/-- C9 counterexample: the claim fails as stated.  From the uninitialized
state — `isKuzuReady` is `false` and no load has ever completed — a query
passed to `executeQuery` is not rejected: the adapter initializes the store
on the spot and then executes the query (the `queryRan` event in the
resulting trace), with `loaded` still `false` in the resulting state. -/
theorem executeQuery_unready_counterexample :
    isKuzuReady ⟨false, false, false⟩ = false ∧
    executeQuery (⟨true, true, true, true, true, true, true, 0, some []⟩ : KuzuEnv)
      (⟨false, false, false⟩ : KuzuState) ("MATCH (n) RETURN n") =
      .ok (⟨true, true, false⟩,
        [KuzuEvent.initialized, KuzuEvent.queryRan ("MATCH (n) RETURN n")], []) :=
  ⟨rfl, rfl⟩

/-- C9 amended: `executeQuery` never rejects a query for lack of readiness.
Whenever initialization is available (or already done) and the query itself
succeeds, the query is executed — also from states where `isKuzuReady` is
`false` and where no bulk load has completed (`loaded` is passed through
unchanged, so the query can run against a store that never loaded). -/
theorem executeQuery_executes (env : KuzuEnv) (s : KuzuState) (q : String)
    (rows : List String) (hinit : s.conn = true ∨ env.initOk = true)
    (hq : env.queryRows = some rows) :
    ∃ s1 evs, executeQuery env s q = .ok (s1, evs, rows) ∧
      KuzuEvent.queryRan q ∈ evs ∧ s1.loaded = s.loaded := by
  unfold executeQuery initKuzu
  by_cases hc : s.conn = true
  · rw [if_pos hc]
    dsimp only
    rw [hq]
    exact ⟨s, [KuzuEvent.queryRan q], rfl, by simp, rfl⟩
  · rw [if_neg hc]
    have hio : env.initOk = true := by
      rcases hinit with h | h
      · exact absurd h hc
      · exact h
    rw [if_pos hio]
    dsimp only
    rw [hq]
    exact ⟨⟨true, true, s.loaded⟩, [KuzuEvent.initialized, KuzuEvent.queryRan q], rfl, by simp, rfl⟩

/-- Witness for the amended C9 at a concrete unready state and successful
environment. -/
theorem executeQuery_executes_witness :
    ((⟨false, false, false⟩ : KuzuState).conn = true ∨
      (⟨true, true, true, true, true, true, true, 0, some ["row"]⟩ : KuzuEnv).initOk = true) ∧
    (⟨true, true, true, true, true, true, true, 0, some ["row"]⟩ : KuzuEnv).queryRows = some ["row"] ∧
    ∃ s1 evs, executeQuery (⟨true, true, true, true, true, true, true, 0, some ["row"]⟩ : KuzuEnv)
      (⟨false, false, false⟩ : KuzuState) ("MATCH (n) RETURN n") = .ok (s1, evs, ["row"]) ∧
      KuzuEvent.queryRan ("MATCH (n) RETURN n") ∈ evs ∧
      s1.loaded = (⟨false, false, false⟩ : KuzuState).loaded :=
  ⟨Or.inr rfl, rfl,
    executeQuery_executes _ _ _ _ (Or.inr rfl) rfl⟩

theorem featuresDef_id (fp : String) (content : List Char) :
    ∀ d ∈ featuresDefinitions fp content,
      d.id = generateId d.label (fp ++ ":" ++ d.name) := by
  intro d hd
  unfold featuresDefinitions at hd
  simp only [List.mem_append, List.mem_map] at hd
  have hkey : (":constructor" : String) = ":" ++ "constructor" := by decide
  rcases hd with (((((⟨m, _, rfl⟩ | ⟨m, _, rfl⟩) | ⟨m, _, rfl⟩) | ⟨m, _, rfl⟩) | ⟨m, _, rfl⟩) | ⟨m, _, rfl⟩)
  · rfl
  · rfl
  · show generateId ("Constructor") (fp ++ ":constructor") =
      generateId ("Constructor") (fp ++ ":" ++ "constructor")
    rw [String.append_assoc, ← hkey]
  · rfl
  · rfl
  · rfl

theorem artifactsRegion_sourceId (fp : String) (content : List Char) :
    ∀ r ∈ artifactsRegions fp content,
      r.sourceId = generateId ("Method") (fp ++ ":" ++ r.name) := by
  intro r hr
  unfold artifactsRegions at hr
  simp only [List.mem_append, List.mem_map] at hr
  rcases hr with ((⟨m, _, rfl⟩ | ⟨m, _, rfl⟩) | ⟨m, _, rfl⟩) <;> rfl

/-- C5: extraction is deterministic.  Both extractors are pure functions of
`(filePath, source)`: two runs on the same inputs are the same value —
identical node ids and an identical definition list, a fortiori
order-independent set equality.  Moreover an element's id is a pure function
of `(label, filePath, name)`: any two part-variant definitions agreeing on
label and name carry the same id, and any two parser regions with the same
name carry the same Method source id — the same logical element always
yields the same id. -/
theorem extraction_deterministic (fp s : String) :
    extractSolidityArtifacts fp s = extractSolidityArtifacts fp s ∧
    extractSolidityFeatures fp s = extractSolidityFeatures fp s ∧
    (∀ d₁ ∈ (extractSolidityFeatures fp s).definitions,
      ∀ d₂ ∈ (extractSolidityFeatures fp s).definitions,
        d₁.label = d₂.label → d₁.name = d₂.name → d₁.id = d₂.id) ∧
    (∀ r₁ ∈ artifactsRegions fp (stripCommentsL s.data),
      ∀ r₂ ∈ artifactsRegions fp (stripCommentsL s.data),
        r₁.name = r₂.name → r₁.sourceId = r₂.sourceId) := by
  refine ⟨rfl, rfl, ?_, ?_⟩
  · intro d₁ h₁ d₂ h₂ hl hn
    have e₁ := featuresDef_id fp s.data d₁ h₁
    have e₂ := featuresDef_id fp s.data d₂ h₂
    rw [e₁, e₂, hl, hn]
  · intro r₁ h₁ r₂ h₂ hn
    rw [artifactsRegion_sourceId fp _ r₁ h₁, artifactsRegion_sourceId fp _ r₂ h₂, hn]

/-- Witness for C5 at a concrete input: the function definition extracted
from `exCallSrc` and the instantiated id equality. -/
theorem extraction_deterministic_witness :
    ((⟨"Function:a.sol:f", "Function", "f", 0, 0, true⟩ : FSolidityDefinition) ∈
      (extractSolidityFeatures ("a.sol") exCallSrc).definitions) ∧
    (⟨"Function:a.sol:f", "Function", "f", 0, 0, true⟩ : FSolidityDefinition).id =
      (⟨"Function:a.sol:f", "Function", "f", 0, 0, true⟩ : FSolidityDefinition).id :=
  ⟨by decide,
    (extraction_deterministic ("a.sol") exCallSrc).2.2.1 _ (by decide) _ (by decide) rfl rfl⟩

theorem artifacts_call_mem {fp : String} {content : List Char} {c : SolidityCall}
    (hc : c ∈ artifactsCalls fp content) :
    ∃ r ∈ artifactsRegions fp content,
      c.sourceId = r.sourceId ∧
      ¬ (CALL_KEYWORDS.contains c.calledName = true) ∧
      c.calledName ≠ r.name ∧
      ∃ m ∈ scanFor tryCallAt (jsSlice content r.start.toNat (r.endIdx.toNat + 1)),
        String.mk m.2 = c.calledName := by
  unfold artifactsCalls at hc
  rw [List.mem_flatMap] at hc
  obtain ⟨r, hr, hcr⟩ := hc
  refine ⟨r, hr, ?_⟩
  unfold regionCalls at hcr
  split at hcr
  · simp at hcr
  · rw [List.mem_filterMap] at hcr
    obtain ⟨m, hm, hsome⟩ := hcr
    split at hsome
    · exact absurd hsome (by simp)
    · split at hsome
      · exact absurd hsome (by simp)
      · rename_i hkw hname
        cases hsome
        exact ⟨rfl, hkw, hname, ⟨m, hm, rfl⟩⟩

/-- C2 counterexample: the claim fails as stated — the part-variant extractor
has no own-name exclusion.  On `function f() public { f(); }` it emits two
call records named `f` (one from the very signature `function f(`, one from
the recursive call), both equal to the enclosing definition's own name. -/
theorem selfName_counterexample :
    ((extractSolidityFeatures ("a.sol") exSelfSrc).calls.map SolidityCall.calledName) =
      ["f", "f"] ∧
    ((extractSolidityFeatures ("a.sol") exSelfSrc).definitions.map FSolidityDefinition.name) =
      ["f"] :=
  ⟨by decide, by decide⟩

/-- C2 amended: the exclusions hold in the solidity-parser extractor —
every call record of `extractSolidityArtifacts` has a called name outside
`CALL_KEYWORDS` and different from the name of the region
(function/modifier/constructor body) it is attributed to.  The part-variant
extractor applies only its own fixed exclusion set
(`KEYWORD_CALL_EXCLUSIONS`) and has no own-name exclusion. -/
theorem call_exclusion_claims (fp s : String) :
    (∀ c ∈ (extractSolidityArtifacts fp s).calls,
      ¬ (CALL_KEYWORDS.contains c.calledName = true) ∧
      ∃ r ∈ artifactsRegions fp (stripCommentsL s.data),
        c.sourceId = r.sourceId ∧ c.calledName ≠ r.name) ∧
    (∀ c ∈ (extractSolidityFeatures fp s).calls,
      ¬ (KEYWORD_CALL_EXCLUSIONS.contains c.calledName = true)) := by
  constructor
  · intro c hc
    obtain ⟨r, hr, hsid, hkw, hname, _⟩ := artifacts_call_mem hc
    exact ⟨hkw, r, hr, hsid, hname⟩
  · intro c hc
    have hc' : c ∈ featuresCalls fp s.data := hc
    unfold featuresCalls at hc'
    rw [List.mem_filterMap] at hc'
    obtain ⟨m, hm, hsome⟩ := hc'
    split at hsome
    · exact absurd hsome (by simp)
    · rename_i hkw
      cases hsome
      exact hkw

/-- Witness for the amended C2: the single call record extracted from
`exCallSrc`, outside the keyword set and distinct from its region's name. -/
theorem call_exclusion_witness :
    ((⟨"g", "Method:a.sol:f"⟩ : SolidityCall) ∈
      (extractSolidityArtifacts ("a.sol") exCallSrc).calls) ∧
    (¬ (CALL_KEYWORDS.contains (("g" : String)) = true) ∧
      ∃ r ∈ artifactsRegions ("a.sol") (stripCommentsL exCallSrc.data),
        ("Method:a.sol:f" : String) = r.sourceId ∧ ("g" : String) ≠ r.name) :=
  ⟨by decide, (call_exclusion_claims ("a.sol") exCallSrc).1 ⟨"g", "Method:a.sol:f"⟩ (by decide)⟩

/-- C1 counterexample: the claim fails as stated.  The part-variant
extractor attributes every call record — including the call to `g` whose
site lies inside the body of `f`, the innermost enclosing definition — to
the File node's id `generateId('File', filePath)`, which differs from the
Method id of `f`. -/
theorem fileAttribution_counterexample :
    (extractSolidityFeatures ("a.sol") exCallSrc).calls =
      [⟨"f", generateId ("File") ("a.sol")⟩, ⟨"g", generateId ("File") ("a.sol")⟩] ∧
    generateId ("File") ("a.sol") ≠ generateId ("Method") ("a.sol:f") :=
  ⟨by decide, by decide⟩

theorem generateId_method_ne_file (k₁ k₂ : String) :
    generateId ("Method") k₁ ≠ generateId ("File") k₂ := by
  intro h
  have h1 : (generateId ("Method") k₁).data[0]? = some 'M' := by
    show ((("Method" : String) ++ ":" ++ k₁)).data[0]? = some 'M'
    rw [String.data_append, List.getElem?_append_left (by decide)]
    decide
  have h2 : (generateId ("File") k₂).data[0]? = some 'F' := by
    show ((("File" : String) ++ ":" ++ k₂)).data[0]? = some 'F'
    rw [String.data_append, List.getElem?_append_left (by decide)]
    decide
  rw [h, h2] at h1
  exact absurd (Option.some.inj h1) (by decide)

/-- C1 amended: in the solidity-parser extractor, every call record arises
from a call-site match found inside the brace-delimited body slice of some
function/modifier/constructor region (call-site matching runs only within
those bodies) and carries that region's Method id — never the File node's
id for any file key.  The part-variant extractor instead attributes every
call record, wherever its site, to the File node's id. -/
theorem call_attribution_claims (fp s : String) :
    (∀ c ∈ (extractSolidityArtifacts fp s).calls,
      ∃ r ∈ artifactsRegions fp (stripCommentsL s.data),
        c.sourceId = r.sourceId ∧
        r.sourceId = generateId ("Method") (fp ++ ":" ++ r.name) ∧
        (∃ m ∈ scanFor tryCallAt
            (jsSlice (stripCommentsL s.data) r.start.toNat (r.endIdx.toNat + 1)),
          String.mk m.2 = c.calledName) ∧
        (∀ fileKey : String, c.sourceId ≠ generateId ("File") fileKey)) ∧
    (∀ c ∈ (extractSolidityFeatures fp s).calls,
      c.sourceId = generateId ("File") fp) := by
  constructor
  · intro c hc
    obtain ⟨r, hr, hsid, _, _, hmatch⟩ := artifacts_call_mem hc
    have hrid := artifactsRegion_sourceId fp (stripCommentsL s.data) r hr
    refine ⟨r, hr, hsid, hrid, hmatch, ?_⟩
    intro fileKey
    rw [hsid, hrid]
    exact generateId_method_ne_file _ _
  · intro c hc
    have hc' : c ∈ featuresCalls fp s.data := hc
    unfold featuresCalls at hc'
    rw [List.mem_filterMap] at hc'
    obtain ⟨m, hm, hsome⟩ := hc'
    split at hsome
    · exact absurd hsome (by simp)
    · cases hsome
      rfl

/-- Witness for the amended C1: the call record extracted from `exCallSrc`
is attributed to the Method id of `f` (and so is no File id). -/
theorem call_attribution_witness :
    ((⟨"g", "Method:a.sol:f"⟩ : SolidityCall) ∈
      (extractSolidityArtifacts ("a.sol") exCallSrc).calls) ∧
    ∃ r ∈ artifactsRegions ("a.sol") (stripCommentsL exCallSrc.data),
      ("Method:a.sol:f" : String) = r.sourceId ∧
      r.sourceId = generateId ("Method") (("a.sol" : String) ++ ":" ++ r.name) ∧
      (∃ m ∈ scanFor tryCallAt
          (jsSlice (stripCommentsL exCallSrc.data) r.start.toNat (r.endIdx.toNat + 1)),
        String.mk m.2 = ("g" : String)) ∧
      (∀ fileKey : String, ("Method:a.sol:f" : String) ≠ generateId ("File") fileKey) :=
  ⟨by decide, (call_attribution_claims ("a.sol") exCallSrc).1 ⟨"g", "Method:a.sol:f"⟩ (by decide)⟩

theorem dropWhile_head_false {α : Type} {p : α → Bool} :
    ∀ {l : List α} {c : α} {t : List α}, l.dropWhile p = c :: t → p c = false := by
  intro l
  induction l with
  | nil => intro c t h; simp at h
  | cons a as ih =>
    intro c t h
    rw [List.dropWhile_cons] at h
    split at h
    · exact ih h
    · rename_i hp
      cases h
      simpa using hp

theorem jsTrim_head {l : List Char} {c : Char} {t : List Char}
    (h : jsTrim l = c :: t) : isJsSpace c = false := by
  unfold jsTrim at h
  have hsuf : (l.dropWhile isJsSpace).reverse.dropWhile isJsSpace <:+
      (l.dropWhile isJsSpace).reverse := List.dropWhile_suffix _
  have hpre : ((l.dropWhile isJsSpace).reverse.dropWhile isJsSpace).reverse <+:
      l.dropWhile isJsSpace := by
    have hx := List.reverse_prefix.mpr hsuf
    rwa [List.reverse_reverse] at hx
  obtain ⟨u, hu⟩ := hpre
  rw [h] at hu
  have hmh : l.dropWhile isJsSpace = c :: (t ++ u) := by
    rw [← hu]
    simp
  exact dropWhile_head_false hmh

theorem mem_takeWhile_pred {α : Type} {p : α → Bool} :
    ∀ {l : List α} {a : α}, a ∈ l.takeWhile p → p a = true := by
  intro l
  induction l with
  | nil => intro a h; simp at h
  | cons c cs ih =>
    intro a h
    rw [List.takeWhile_cons] at h
    split at h
    · rcases List.mem_cons.mp h with rfl | h2
      · assumption
      · exact ih h2
    · simp at h

/-- C8 counterexample: the claim fails as stated — argument lists in the
parent clause are not ignored.  `contract C is A(1) {}` yields the parent
name `A(1)`, not `A`; and a comma inside an argument list splits the entry:
`contract C is A(1, 2) {}` yields the two parent names `A(1` and `2)`. -/
theorem heritage_args_counterexample :
    (extractSolidityArtifacts ("c.sol") exHeritageSrc).heritage =
      [⟨"C", "A(1)", "extends"⟩] ∧
    ("A(1)" : String) ≠ ("A" : String) ∧
    ((extractSolidityArtifacts ("c.sol") exHeritage2Src).heritage.map
      SolidityHeritage.parentName) = ["A(1", "2)"] :=
  ⟨by decide, by decide, by decide⟩

/-- C8 amended: every heritage row of the solidity-parser extractor comes
from the `is` clause of a contract-like declaration suffix split on commas;
its parent name is the first whitespace-separated token — the leading
non-whitespace run — of its trimmed, nonempty entry (hence nonempty and
whitespace-free), but an argument list attached directly to the parent name
is kept as part of that token, and commas inside argument lists split
entries. -/
theorem heritage_token_claims (fp s : String) :
    ∀ h ∈ (extractSolidityArtifacts fp s).heritage,
      h.kind = ("extends" : String) ∧
      h.parentName.data ≠ [] ∧
      (∀ ch ∈ h.parentName.data, isJsSpace ch = false) ∧
      ∃ m ∈ scanFor tryContractLikeAt (stripCommentsL s.data),
        h.className = String.mk m.2.2.1 ∧
        ∃ cap, isClauseSearch m.2.2.2.length false m.2.2.2 = some cap ∧
        ∃ p ∈ splitComma cap, (jsTrim p).isEmpty = false ∧
          h.parentName = String.mk ((jsTrim p).takeWhile (fun c => !isJsSpace c)) := by
  intro h hh
  have hh' : h ∈ artifactsHeritage (stripCommentsL s.data) := hh
  unfold artifactsHeritage at hh'
  rw [List.mem_flatMap] at hh'
  obtain ⟨m, hm, hhm⟩ := hh'
  unfold heritageOfMatch at hhm
  rcases hcap : isClauseSearch m.2.2.2.length false m.2.2.2 with _ | cap
  · rw [hcap] at hhm
    simp at hhm
  · rw [hcap] at hhm
    dsimp only at hhm
    rw [List.mem_map] at hhm
    obtain ⟨q, hq, rfl⟩ := hhm
    rw [List.mem_filter] at hq
    obtain ⟨hq1, hq2⟩ := hq
    rw [List.mem_map] at hq1
    obtain ⟨p, hp, rfl⟩ := hq1
    have hne : jsTrim p ≠ [] := by
      intro hnil
      rw [hnil] at hq2
      simp at hq2
    obtain ⟨c0, t0, hct⟩ : ∃ c0 t0, jsTrim p = c0 :: t0 := by
      rcases hval : jsTrim p with _ | ⟨c0, t0⟩
      · exact absurd hval hne
      · exact ⟨c0, t0, rfl⟩
    have hc0 : isJsSpace c0 = false := jsTrim_head hct
    refine ⟨rfl, ?_, ?_, m, hm, rfl, cap, hcap, p, hp, ?_, rfl⟩
    · show ((jsTrim p).takeWhile (fun c => !isJsSpace c)) ≠ []
      rw [hct, List.takeWhile_cons, if_pos (by simp [hc0])]
      simp
    · intro ch hch
      have hch0 : ch ∈ (jsTrim p).takeWhile (fun c => !isJsSpace c) := hch
      have hch' := mem_takeWhile_pred hch0
      simpa using hch'
    · simpa using hq2

/-- Witness for the amended C8 at `exHeritageSrc`: the single heritage row
`C extends A(1)`. -/
theorem heritage_token_witness :
    ((⟨"C", "A(1)", "extends"⟩ : SolidityHeritage) ∈
      (extractSolidityArtifacts ("c.sol") exHeritageSrc).heritage) ∧
    ((⟨"C", "A(1)", "extends"⟩ : SolidityHeritage).kind = ("extends" : String) ∧
      (⟨"C", "A(1)", "extends"⟩ : SolidityHeritage).parentName.data ≠ [] ∧
      (∀ ch ∈ (⟨"C", "A(1)", "extends"⟩ : SolidityHeritage).parentName.data,
        isJsSpace ch = false) ∧
      ∃ m ∈ scanFor tryContractLikeAt (stripCommentsL exHeritageSrc.data),
        (⟨"C", "A(1)", "extends"⟩ : SolidityHeritage).className = String.mk m.2.2.1 ∧
        ∃ cap, isClauseSearch m.2.2.2.length false m.2.2.2 = some cap ∧
        ∃ p ∈ splitComma cap, (jsTrim p).isEmpty = false ∧
          (⟨"C", "A(1)", "extends"⟩ : SolidityHeritage).parentName =
            String.mk ((jsTrim p).takeWhile (fun c => !isJsSpace c))) :=
  ⟨by decide, heritage_token_claims ("c.sol") exHeritageSrc _ (by decide)⟩

theorem mem_dedupeEdges {l : List Relationship} {e : Relationship} :
    ∀ {seen : List Relationship}, e ∈ dedupeEdges seen l → e ∈ l := by
  induction l with
  | nil => intro seen h; simp [dedupeEdges] at h
  | cons a as ih =>
    intro seen h
    unfold dedupeEdges at h
    split at h
    · exact List.mem_cons_of_mem _ (ih h)
    · rcases List.mem_cons.mp h with rfl | h2
      · exact List.mem_cons_self _ _
      · exact List.mem_cons_of_mem _ (ih h2)

theorem nodeIdMem_exists {nodes : List GraphNode} {i : String}
    (h : nodeIdMem nodes i = true) : ∃ n ∈ nodes, n.id = i := by
  unfold nodeIdMem at h
  rw [List.any_eq_true] at h
  obtain ⟨n, hn, hd⟩ := h
  exact ⟨n, hn, by simpa using hd⟩

/-- C4: no dangling edges — for every list of per-file results, every
relationship of the built graph has both its `sourceId` and its `targetId`
among the ids of the graph's nodes.  (Spec-modelled: the Graph Builder's
TypeScript sources are not under the provided tree; the builder is modelled
from §4.4 of the spec, whose contract includes this invariant.) -/
theorem buildGraph_no_dangling (results : List FileResult) :
    ∀ e ∈ (buildGraph results).relationships,
      (∃ n ∈ (buildGraph results).nodes, n.id = e.sourceId) ∧
      (∃ n ∈ (buildGraph results).nodes, n.id = e.targetId) := by
  intro e he
  have he2 : e ∈ dedupeEdges []
      ((buildEdges results (buildNodes results)).filter (fun e =>
        nodeIdMem (buildNodes results) e.sourceId ∧
        nodeIdMem (buildNodes results) e.targetId)) := he
  have he3 := mem_dedupeEdges he2
  rw [List.mem_filter] at he3
  obtain ⟨_, hcond⟩ := he3
  have hcond' : nodeIdMem (buildNodes results) e.sourceId = true ∧
      nodeIdMem (buildNodes results) e.targetId = true := by
    have := of_decide_eq_true hcond
    exact this
  exact ⟨nodeIdMem_exists hcond'.1, nodeIdMem_exists hcond'.2⟩

/-- Witness for C4: the CONTAINS edge of a one-file, one-class build. -/
theorem buildGraph_no_dangling_witness :
    ((⟨"File:a.sol", "Class:a.sol:A", "CONTAINS"⟩ : Relationship) ∈
      (buildGraph exResults).relationships) ∧
    ((∃ n ∈ (buildGraph exResults).nodes,
        n.id = (⟨"File:a.sol", "Class:a.sol:A", "CONTAINS"⟩ : Relationship).sourceId) ∧
      (∃ n ∈ (buildGraph exResults).nodes,
        n.id = (⟨"File:a.sol", "Class:a.sol:A", "CONTAINS"⟩ : Relationship).targetId)) :=
  ⟨by decide, buildGraph_no_dangling exResults _ (by decide)⟩
